import Mathlib

/-!
Verification of the PCP-Pattern-Pursuit puzzle engine
(`src/packages/pcp-engine/src/index.ts`) against its natural-language
specification.

The engine is shallowly embedded below.  JS strings are modelled as
`List Char` (the sources only use BMP characters, where `charCodeAt`
agrees with `Char.toNat`).  JS numbers are modelled as `Int` where the
code can produce negative values and as `Nat` where it cannot.  The
mulberry32 generator works on a 32-bit state carried explicitly; a call
`rng()` returns `k / 2^32` for an integer `k < 2^32`, so
`Math.floor(rng() * n)` is exactly `k * n / 2^32` in natural-number
division whenever `n < 2^21` (the float product is then exact); every
multiplier used by the engine at the inputs our theorems touch is far
below that bound.  The one unbounded loop of the engine (the cut-point
drawing loop of `randomPartition`) is given explicit fuel; running out
of fuel is reported as the outer `none`, distinct from the engine's own
`null`s and thrown error.
-/

set_option maxRecDepth 40000
set_option maxHeartbeats 4000000

namespace PCP

/-- 2^32, the modulus of all 32-bit JS bit arithmetic in the engine. -/
def m32 : Nat := 4294967296

/-- One step of `mulberry32` (index.ts lines 94-102): advance the state by
the odd constant and mix; returns the 32-bit output `k` (the JS call
returns `k / 2^32`) together with the new state. -/
def nextK (t : Nat) : Nat × Nat :=
  let t' := (t + 0x6D2B79F5) % m32
  let a := Nat.xor t' (t' >>> 15)
  let r1 := (a * (t' ||| 1)) % m32
  let m := ((Nat.xor r1 (r1 >>> 7)) * (r1 ||| 61)) % m32
  let r2 := Nat.xor r1 ((r1 + m) % m32)
  (Nat.xor r2 (r2 >>> 14), t')

/-- `Math.floor(rng() * n)` when the call returned `k / 2^32`: exact for
the small multipliers the engine uses (see module comment). -/
def jsFloorMul (k n : Nat) : Nat := k * n / m32

/-- `rng() > 0.6` when the call returned `k / 2^32`.  The double closest
to 0.6 is `5404319552844595 / 2^53`, and `k / 2^32 > m / 2^53` iff
`k * 2^21 > m`; both comparands are exact doubles so the JS comparison
is exact. -/
def gt06 (k : Nat) : Bool := 5404319552844595 < k * 2097152

/-- 32-bit left-rotation by 13, i.e. `(h << 13) | (h >>> 19)` on int32. -/
def rotl13 (h : Nat) : Nat := ((h <<< 13) % m32) ||| (h >>> 19)

/-- `hashSeed` (index.ts lines 104-111): FNV/murmur-style avalanche over
the seed's UTF-16 units (BMP chars, so `Char.toNat`). -/
def hashSeed (seed : List Char) : Nat :=
  let h0 := Nat.xor 1779033703 seed.length
  let h := seed.foldl (fun h c => rotl13 ((Nat.xor h c.toNat * 3432918353) % m32)) h0
  Nat.xor h (h >>> 16)

/-- Characters treated as whitespace by JS `String.prototype.trim`
(WhiteSpace and LineTerminator code points). -/
def jsIsWs (c : Char) : Bool :=
  c = ' ' ∨ c = '\t' ∨ c = '\n' ∨ c = '\r' ∨ c.toNat = 11 ∨ c.toNat = 12 ∨
  c.toNat = 0xA0 ∨ c.toNat = 0xFEFF ∨ c.toNat = 0x2028 ∨ c.toNat = 0x2029 ∨
  (0x2000 ≤ c.toNat ∧ c.toNat ≤ 0x200A) ∨ c.toNat = 0x1680 ∨ c.toNat = 0x202F ∨
  c.toNat = 0x205F ∨ c.toNat = 0x3000

/-- JS `s.trim()`: strip leading and trailing whitespace. -/
def jsTrim (s : List Char) : List Char :=
  ((s.dropWhile jsIsWs).reverse.dropWhile jsIsWs).reverse

/-- `clampInt` (index.ts line 138): `Math.min(max, Math.max(min, Math.round(value)))`.
All numeric overrides our theorems quantify over are integers, on which
`Math.round` is the identity. -/
def clampInt (value lo hi : Int) : Int := min hi (max lo value)

/-- The fixed ordered alphabet pool `"abcdefghijklmnopqrstuvwxyz"`. -/
def ALPHABET_POOL : List Char := "abcdefghijklmnopqrstuvwxyz".toList

/-- `buildAlphabet` (index.ts line 140). -/
def buildAlphabet (size : Int) : List Char :=
  ALPHABET_POOL.take (clampInt size 1 (ALPHABET_POOL.length : Int)).toNat

inductive PresetName where
  | easy | medium | hard | tricky | expert
deriving DecidableEq, Repr

inductive AlphabetTheme where
  | preset | binary | wide
deriving DecidableEq, Repr

structure Tile where
  id : List Char
  top : List Char
  bottom : List Char
deriving DecidableEq, Repr

instance : Inhabited Tile := ⟨⟨[], [], []⟩⟩

structure PuzzleSettings where
  tileCount : Int
  tileCountRange : Option (Int × Int)
  alphabet : List Char
  minLength : Int
  maxLength : Int
  allowUnsolvable : Bool
  forceUnique : Bool
  theme : Option AlphabetTheme
deriving DecidableEq, Repr

structure PuzzleInstance where
  seed : List Char
  preset : PresetName
  settings : PuzzleSettings
  tiles : List Tile
  solvable : Bool
  solution : Option (List (List Char))
deriving DecidableEq, Repr

/-- The `PRESETS` table (index.ts lines 33-75). -/
def PRESETS : PresetName → PuzzleSettings
  | .easy =>
    { tileCount := 3, tileCountRange := none, alphabet := ALPHABET_POOL.take 2,
      minLength := 2, maxLength := 3, allowUnsolvable := false,
      forceUnique := true, theme := none }
  | .medium =>
    { tileCount := 5, tileCountRange := none, alphabet := ALPHABET_POOL.take 3,
      minLength := 2, maxLength := 4, allowUnsolvable := false,
      forceUnique := true, theme := none }
  | .hard =>
    { tileCount := 7, tileCountRange := none, alphabet := ALPHABET_POOL.take 3,
      minLength := 3, maxLength := 5, allowUnsolvable := false,
      forceUnique := true, theme := none }
  | .tricky =>
    { tileCount := 6, tileCountRange := none, alphabet := ALPHABET_POOL.take 3,
      minLength := 2, maxLength := 4, allowUnsolvable := false,
      forceUnique := false, theme := none }
  | .expert =>
    { tileCount := 9, tileCountRange := some (8, 10), alphabet := ALPHABET_POOL.take 5,
      minLength := 4, maxLength := 7, allowUnsolvable := true,
      forceUnique := true, theme := none }

/-- The optional `overrides` argument of `generatePuzzle`
(index.ts lines 77-90). -/
structure GenOverrides where
  tileCount : Option Int := none
  minLength : Option Int := none
  maxLength : Option Int := none
  alphabet : Option (List Char) := none
  alphabetSize : Option Int := none
  allowUnsolvable : Option Bool := none
  forceUnique : Option Bool := none
  theme : Option AlphabetTheme := none
deriving DecidableEq, Repr

/-- `resolveSettings` (index.ts lines 142-183), threading the rng state.
`overrides?.tileCount ? A : B` tests JS truthiness (an override of `0`
is falsy and selects `B`), while `overrides?.tileCount ?? draw` is
nullish coalescing (an override of `0` is kept and the draw — with its
rng call — is skipped). -/
def resolveSettings (preset : PresetName) (ovr : GenOverrides) (s : Nat) :
    PuzzleSettings × Nat :=
  let base := PRESETS preset
  let tcRange : Int × Int :=
    match ovr.tileCount with
    | some k => if k ≠ 0 then (k, k) else (base.tileCountRange.getD (base.tileCount, base.tileCount))
    | none => base.tileCountRange.getD (base.tileCount, base.tileCount)
  let tcSpan : Int := tcRange.2 - tcRange.1 + 1
  let (tileCount, s1) : Int × Nat :=
    match ovr.tileCount with
    | some k => (k, s)
    | none =>
      let (k, s') := nextK s
      (clampInt (tcRange.1 + (jsFloorMul k tcSpan.toNat : Nat)) 2 24, s')
  let minLength := clampInt (ovr.minLength.getD base.minLength) 1 48
  let maxLength := clampInt (ovr.maxLength.getD base.maxLength) minLength 64
  let theme := ovr.theme.getD .preset
  let sizeDflt : Int := ((ovr.alphabetSize).getD
    (match ovr.alphabet with
     | some a => (a.length : Int)
     | none => (base.alphabet.length : Int)))
  let alphabet : List Char :=
    match ovr.alphabet with
    | some a => a
    | none =>
      if theme = .binary then ['0', '1']
      else if theme = .wide then buildAlphabet (clampInt (max sizeDflt 5) 5 6)
      else buildAlphabet sizeDflt
  ({ tileCount := tileCount, tileCountRange := some tcRange, alphabet := alphabet,
     minLength := minLength, maxLength := maxLength,
     allowUnsolvable := ovr.allowUnsolvable.getD base.allowUnsolvable,
     forceUnique := ovr.forceUnique.getD base.forceUnique,
     theme := some theme }, s1)

/-- `randomString` (index.ts lines 113-120), threading the rng state.
One rng call per character position.  With a non-empty alphabet the
index is `Math.floor(rng()*len) % len`; with an empty alphabet the JS
indexing yields `undefined` and the `+=` concatenates the string
`"undefined"`. -/
def randomString (alpha : List Char) (s : Nat) : Nat → List Char × Nat
  | 0 => ([], s)
  | n + 1 =>
    let (k, s1) := nextK s
    let piece :=
      if alpha.length = 0 then "undefined".toList
      else [alpha.getD (jsFloorMul k alpha.length % alpha.length) 'a']
    let (rest, s2) := randomString alpha s1 n
    (piece ++ rest, s2)

/-- `tweakString` (index.ts lines 122-128): replace one random position
by the first alphabet symbol differing from the character there (keep
the string unchanged when no such symbol exists). -/
def tweakString (s : Nat) (value : List Char) (alpha : List Char) : List Char × Nat :=
  match value with
  | [] => ([], s)
  | _ :: _ =>
    let (k, s1) := nextK s
    let idx := jsFloorMul k value.length
    let current := value.getD idx 'a'
    let replacement := (alpha.find? (fun c => c ≠ current)).getD current
    (value.take idx ++ replacement :: value.drop (idx + 1), s1)

/-- Decimal/base-36 digit characters, as produced by JS `Number.prototype.toString`. -/
def digitChar36 (d : Nat) : Char :=
  if d < 10 then Char.ofNat (48 + d) else Char.ofNat (87 + d)

/-- Digits in base `b` (most significant first), structurally recursive
on a fuel bound: `n` itself always bounds the digit count since
`n / b < n` for `b ≥ 2, n ≥ b`. -/
def natToBaseF : Nat → Nat → Nat → List Char
  | 0, _, n => [digitChar36 n]
  | fuel + 1, b, n =>
    if n < b ∨ b ≤ 1 then [digitChar36 n]
    else natToBaseF fuel b (n / b) ++ [digitChar36 (n % b)]

/-- Digits of `n` in base `b` (most significant first), as in JS
`n.toString(b)` for a nonnegative integer `n`. -/
def natToBase (b : Nat) (n : Nat) : List Char := natToBaseF n b n

/-- `makeId` (index.ts line 194):
`tile-${idx}-${Math.floor(rng() * 1e6).toString(36)}`. -/
def makeId (s : Nat) (idx : Nat) : List Char × Nat :=
  let (k, s1) := nextK s
  ("tile-".toList ++ natToBase 10 idx ++ '-' :: natToBase 36 (jsFloorMul k 1000000), s1)

/-- JS element swap `[out[i], out[j]] = [out[j], out[i]]` (indices in
range at every use). -/
def jsSwap (l : List Tile) (i j : Nat) : List Tile :=
  (l.set i (l.getD j default)).set j (l.getD i default)

/-- The loop of `shuffle` (index.ts lines 185-192): the argument is the
current index `i ≥ 1`; each step draws `j = Math.floor(rng()*(i+1))`,
swaps, and decrements. -/
def shuffleGo : Nat → Nat → List Tile → List Tile × Nat
  | 0, s, l => (l, s)
  | i + 1, s, l =>
    shuffleGo i (nextK s).2 (jsSwap l (i + 1) (jsFloorMul (nextK s).1 (i + 2)))

/-- Fisher–Yates `shuffle` (index.ts lines 185-192). -/
def shuffle (s : Nat) (l : List Tile) : List Tile × Nat :=
  match l.length with
  | 0 => (l, s)
  | n + 1 => shuffleGo n s l

/-- Insert a cut value into the sorted duplicate-free list representing
the JS `Set` of cuts.  (JS collects the set unsorted and sorts it before
use; collecting it in sorted order yields the very same sorted sequence
and the very same membership test.) -/
def insertCut (x : Nat) : List Nat → List Nat
  | [] => [x]
  | y :: ys =>
    if x < y then x :: y :: ys
    else if x = y then y :: ys
    else y :: insertCut x ys

/-- The cut-drawing loop of `randomPartition` (index.ts lines 207-209):
`while (cuts.size < count - 1) cuts.add(1 + Math.floor(rng()*(total-1)))`.
This loop has NO iteration ceiling in the source; it is given fuel here,
and `none` means the fuel ran out while the JS loop would still be
running.  `total1` is `(total - 1).toNat` (the callers that matter have
`total ≥ 1`). -/
def drawCuts (total1 : Nat) (target : Int) : Nat → List Nat → Nat → Option (List Nat × Nat)
  | fuel, cuts, s =>
    if (cuts.length : Int) < target then
      match fuel with
      | 0 => none
      | f + 1 =>
        let (k, s1) := nextK s
        drawCuts total1 target f (insertCut (1 + jsFloorMul k total1) cuts) s1
    else some (cuts, s)

/-- The length-checking walk of one `randomPartition` attempt
(index.ts lines 210-221): consecutive differences of the sorted cut
sequence, each required to lie in `[minLen, maxLen]`. -/
def lensFrom (minLen maxLen : Int) (prev : Int) : List Int → Option (List Int)
  | [] => some []
  | c :: rest =>
    let d := c - prev
    if minLen ≤ d ∧ d ≤ maxLen then (lensFrom minLen maxLen c rest).map (d :: ·)
    else none

/-- The attempt loop of `randomPartition` (index.ts lines 204-223), at
most 100 attempts; the result's inner `none` is the JS `null`. -/
def partitionAttempts (fuel : Nat) (total count minLen maxLen : Int) :
    Nat → Nat → Option (Option (List Int) × Nat)
  | s, 0 => some (none, s)
  | s, a + 1 =>
    match drawCuts (total - 1).toNat (count - 1) fuel [] s with
    | none => none
    | some (cuts, s1) =>
      match lensFrom minLen maxLen 0 ((cuts.map (Int.ofNat)) ++ [total]) with
      | some lens => some (some lens, s1)
      | none => partitionAttempts fuel total count minLen maxLen s1 a

/-- `randomPartition` (index.ts lines 196-225).  The outer `none` means
the unbounded cut loop outlived its fuel; `some (none, s)` is the JS
`null` return; `some (some lens, s)` is a found partition. -/
def randomPartition (fuel : Nat) (s : Nat) (total count minLen maxLen : Int) :
    Option (Option (List Int) × Nat) :=
  if total < count * minLen ∨ total > count * maxLen then some (none, s)
  else partitionAttempts fuel total count minLen maxLen s 100

/-- `partitionsForceEqualTile` (index.ts lines 227-242), walking both
partitions with running offsets and counting aligned equal segments. -/
def forceEqualGo (maxAligned : Int) : Int → Int → Int → List Int → List Int → Bool
  | _, _, _, [], _ => false
  | _, _, _, _ :: _, [] => false
  | aligned, topOff, botOff, tp :: tps, bp :: bps =>
    if topOff = botOff ∧ tp = bp then
      if aligned + 1 > maxAligned then true
      else forceEqualGo maxAligned (aligned + 1) (topOff + tp) (botOff + bp) tps bps
    else forceEqualGo maxAligned aligned (topOff + tp) (botOff + bp) tps bps

/-- `partitionsForceEqualTile` entry point (both partitions always have
equal length at the call sites; a shorter top list ends the JS loop the
same way). -/
def partitionsForceEqualTile (tp bp : List Int) (maxAligned : Int) : Bool :=
  forceEqualGo maxAligned 0 0 0 tp bp

/-- JS `Math.round(d * 0.6)`.  The nearest double to 0.6 is slightly
below `3/5`; the float product never lands within an ulp of a
half-integer (the exact value `6d/10` is never a half-integer since `6d`
is even), so rounding the exact product half-up agrees with the JS
result: `⌊(6d + 5) / 10⌋`. -/
def jsRound06 (d : Int) : Int := Int.fdiv (6 * d + 5) 10

/-- JS array element assignment `base[i] = v`; at the engine's call
sites `i ≤ base.length`, and assigning at `i = length` appends. -/
def jsSetExt (l : List Int) (i : Nat) (v : Int) : List Int :=
  if i < l.length then l.set i v else l ++ [v]

/-- The hand-built fallback partition (index.ts lines 290-297):
`count` copies of `minLen`, then `base[0] = minLen` and
`base[1] = Math.min(maxLen, minLen + 1)` (which EXTENDS the array when
`count < 2`). -/
def fallbackParts (count minLen maxLen : Int) : List Int :=
  jsSetExt (jsSetExt (List.replicate count.toNat minLen) 0 minLen) 1 (min maxLen (minLen + 1))

/-- The partition-pair loop of `buildSolvableTiles` (index.ts lines
259-288), at most 50 tries: draw a target length, draw a top and a
bottom partition of it, and reject pointwise-equal pairs and (under
`forceUnique`) pairs with too many aligned equal segments. -/
def pairTries (fuel : Nat) (count minLen maxLen minTotal maxTotal : Int)
    (requireUnique : Bool) (maxAligned : Int) :
    Nat → Nat → Option (Option (List Int × List Int × Int) × Nat)
  | s, 0 => some (none, s)
  | s, t + 1 =>
    let d := maxTotal - minTotal
    let bound := max 1 (min d (jsRound06 d))
    let (k1, s1) := nextK s
    let dtb := minTotal + (jsFloorMul k1 bound.toNat : Int)
    let (k2, s2) := nextK s1
    let totalLength :=
      min maxTotal (max minTotal (dtb + (jsFloorMul k2 (maxLen - minLen + 1).toNat : Int)))
    match randomPartition fuel s2 totalLength count minLen maxLen with
    | none => none
    | some (tpO, s3) =>
      match randomPartition fuel s3 totalLength count minLen maxLen with
      | none => none
      | some (bpO, s4) =>
        match tpO, bpO with
        | some tp, some bp =>
          let hasDiff := (tp.zip bp).any fun p => p.1 ≠ p.2
          let forcedMatch := requireUnique && partitionsForceEqualTile tp bp maxAligned
          if hasDiff && !forcedMatch then some (some (tp, bp, totalLength), s4)
          else pairTries fuel count minLen maxLen minTotal maxTotal requireUnique maxAligned s4 t
        | _, _ => pairTries fuel count minLen maxLen minTotal maxTotal requireUnique maxAligned s4 t

/-- JS `target.slice(a, b)` for the nonnegative in-order offsets used by
the tile loop. -/
def jsSliceI (l : List Char) (a b : Int) : List Char :=
  (l.take b.toNat).drop a.toNat

/-- The per-tile slicing loop of one target attempt (index.ts lines
311-339): slice the target by both partitions, reject a tile whose top
equals its bottom or whose (top, bottom) pair was already seen, and
draw an id for each accepted tile.  `n` is the number of tiles still to
build and `idx` the construction index of the next one. -/
def tileLoop (target : List Char) (tp bp : List Int) :
    Nat → Nat → Int → Int → List (List Char) → Nat → Option (List Tile) × Nat
  | _, 0, _, _, _, s => (some [], s)
  | idx, n + 1, topOff, botOff, seen, s =>
    let topLen := tp.getD idx 0
    let botLen := bp.getD idx 0
    let topSlice := jsSliceI target topOff (topOff + topLen)
    let botSlice := jsSliceI target botOff (botOff + botLen)
    let key := topSlice ++ '|' :: botSlice
    if seen.contains key || topSlice == botSlice then (none, s)
    else
      let (id, s1) := makeId s idx
      match tileLoop target tp bp (idx + 1) n (topOff + topLen) (botOff + botLen) (key :: seen) s1 with
      | (none, s2) => (none, s2)
      | (some rest, s2) => (some (⟨id, topSlice, botSlice⟩ :: rest), s2)

/-- The target-string loop (index.ts lines 309-345), at most 60 tries:
draw a random target of the chosen total length and try to slice it into
tiles. -/
def targetTries (alpha : List Char) (tp bp : List Int) (totalLength : Int) (count : Nat) :
    Nat → Nat → Option (List Tile) × Nat
  | s, 0 => (none, s)
  | s, t + 1 =>
    let (target, s1) := randomString alpha s totalLength.toNat
    match tileLoop target tp bp 0 count 0 0 [] s1 with
    | (some tiles, s2) => (some tiles, s2)
    | (none, s2) => targetTries alpha tp bp totalLength count s2 t

/-- The outer attempt loop of `buildSolvableTiles` (index.ts lines
252-348), at most 100 attempts.  `some (none, s)` models the
`throw new Error(...)` after the last attempt; the outer `none` is
fuel exhaustion of the cut-drawing loop. -/
def buildAttempts (fuel : Nat) (st : PuzzleSettings) (minLen maxLen minTotal maxTotal : Int)
    (requireUnique : Bool) (maxAligned : Int) :
    Nat → Nat → Option (Option (List Tile × List (List Char)) × Nat)
  | s, 0 => some (none, s)
  | s, a + 1 =>
    match pairTries fuel st.tileCount minLen maxLen minTotal maxTotal requireUnique maxAligned s 50 with
    | none => none
    | some (pairO, s1) =>
      let parts : List Int × List Int × Int :=
        match pairO with
        | some x => x
        | none =>
          let base := fallbackParts st.tileCount minLen maxLen
          (base, base.reverse, base.sum)
      let tp := parts.1
      let bp := parts.2.1
      let totalLength := parts.2.2
      if requireUnique && partitionsForceEqualTile tp bp maxAligned then
        buildAttempts fuel st minLen maxLen minTotal maxTotal requireUnique maxAligned s1 a
      else
        match targetTries st.alphabet tp bp totalLength st.tileCount.toNat s1 60 with
        | (some tiles, s2) =>
          let sol := tiles.map (·.id)
          let (shuffled, s3) := shuffle s2 tiles
          some (some (shuffled, sol), s3)
        | (none, s2) =>
          buildAttempts fuel st minLen maxLen minTotal maxTotal requireUnique maxAligned s2 a

/-- `buildSolvableTiles` (index.ts lines 244-351). -/
def buildSolvableTiles (fuel : Nat) (st : PuzzleSettings) (s : Nat) :
    Option (Option (List Tile × List (List Char)) × Nat) :=
  let minLen := max 1 st.minLength
  let maxLen := max minLen st.maxLength
  let minTotal := st.tileCount * minLen
  let maxTotal := st.tileCount * maxLen
  let requireUnique := st.forceUnique
  let maxAligned : Int :=
    if requireUnique then (if 6 ≤ st.tileCount then 1 else 0) else st.tileCount
  buildAttempts fuel st minLen maxLen minTotal maxTotal requireUnique maxAligned s 100

/-- One body of the per-tile do-while of the unsolvable builder
(index.ts lines 368-375): draw both lengths, both strings, and tweak the
bottom if it came out equal to the top; the duplicate key is computed
from the current top/bottom. -/
def unsolvBody (st : PuzzleSettings) (s : Nat) :
    List Char × List Char × List Char × Nat :=
  let span := (max 1 (st.maxLength - st.minLength + 1)).toNat
  let (k1, s1) := nextK s
  let topLen := st.minLength + (jsFloorMul k1 span : Int)
  let (k2, s2) := nextK s1
  let botLen := st.minLength + (jsFloorMul k2 span : Int)
  let (top, s3) := randomString st.alphabet s2 topLen.toNat
  let (bottom0, s4) := randomString st.alphabet s3 botLen.toNat
  let (bottom, s5) :=
    if bottom0 == top then tweakString s4 bottom0 st.alphabet else (bottom0, s4)
  (top, bottom, top ++ '|' :: bottom, s5)

/-- The guarded do-while of the unsolvable builder (index.ts lines
368-376): repeat the body while the key was seen or top equals bottom,
at most 50 bodies in all (the argument is the number of bodies still
allowed after the present one). -/
def unsolvLoop (st : PuzzleSettings) (seen : List (List Char)) :
    Nat → Nat → List Char × List Char × List Char × Nat
  | 0, s => unsolvBody st s
  | f + 1, s =>
    let (top, bottom, key, s1) := unsolvBody st s
    if seen.contains key || top == bottom then unsolvLoop st seen f s1
    else (top, bottom, key, s1)

/-- One tile of the unsolvable builder (index.ts lines 362-384): run the
guarded loop, apply the final tweak when top still equals bottom, record
the (possibly stale) key as seen, and draw the id. -/
def unsolvTile (st : PuzzleSettings) (seen : List (List Char)) (s : Nat) (idx : Nat) :
    Tile × List (List Char) × Nat :=
  let (top, bottom0, key, s1) := unsolvLoop st seen 49 s
  let (bottom, s2) :=
    if top == bottom0 then tweakString s1 bottom0 st.alphabet else (bottom0, s1)
  let (id, s3) := makeId s2 idx
  (⟨id, top, bottom⟩, key :: seen, s3)

/-- The tile sequence of the unsolvable builder (index.ts lines
361-384); `n` tiles remain, `idx` is the next construction index. -/
def unsolvTiles (st : PuzzleSettings) :
    Nat → Nat → List (List Char) → Nat → List Tile × Nat
  | _, 0, _, s => ([], s)
  | idx, n + 1, seen, s =>
    let (tile, seen', s1) := unsolvTile st seen s idx
    let (rest, s2) := unsolvTiles st (idx + 1) n seen' s1
    (tile :: rest, s2)

/-- `deriveSeed` (index.ts lines 130-136): the trimmed input when it is
truthy and its trim is nonempty, otherwise a fresh system-derived string
(passed in as `sysRandom`, the model of `crypto.randomUUID()` /
`Math.random()`). -/
def deriveSeed (sysRandom : List Char) : Option (List Char) → List Char
  | some s => if s ≠ [] ∧ jsTrim s ≠ [] then jsTrim s else sysRandom
  | none => sysRandom

/-- `generatePuzzle` (index.ts lines 353-390).  The outer `none` is fuel
exhaustion of the unbounded cut loop; `some none` is the thrown
generation error; `some (some inst)` is a returned instance. -/
def generatePuzzle (fuel : Nat) (sysRandom : List Char) (preset : PresetName)
    (seed : Option (List Char)) (ovr : GenOverrides) : Option (Option PuzzleInstance) :=
  let actualSeed := deriveSeed sysRandom seed
  let s0 := hashSeed actualSeed
  let (settings, s1) := resolveSettings preset ovr s0
  let (shouldUnsolv, s2) :=
    if settings.allowUnsolvable then
      let (k, s') := nextK s1
      (gt06 k, s')
    else (false, s1)
  if shouldUnsolv then
    let (tiles, _) := unsolvTiles settings 0 settings.tileCount.toNat [] s2
    some (some ⟨actualSeed, preset, settings, tiles, false, none⟩)
  else
    match buildSolvableTiles fuel settings s2 with
    | none => none
    | some (none, _) => some none
    | some (some (tiles, sol), _) =>
      some (some ⟨actualSeed, preset, settings, tiles, true, some sol⟩)

/-- Lookup in the JS `Map` built from the tile list (index.ts line 394):
for duplicate ids the later entry overwrites the earlier one. -/
def lookupLast (tiles : List Tile) (id : List Char) : Option Tile :=
  tiles.foldl (fun acc t => if t.id == id then some t else acc) none

/-- The accumulation loop of `validateSolution` (index.ts lines
395-403). -/
def validateGo (tiles : List Tile) : List (List Char) → List Char → List Char → Bool
  | [], top, bottom => top == bottom
  | id :: rest, top, bottom =>
    match lookupLast tiles id with
    | none => false
    | some t => validateGo tiles rest (top ++ t.top) (bottom ++ t.bottom)

/-- `validateSolution` (index.ts lines 392-404). -/
def validateSolution (p : PuzzleInstance) (order : List (List Char)) : Bool :=
  if order.isEmpty then false else validateGo p.tiles order [] []

/-- `findSolution` (index.ts lines 406-409); a JS empty array is truthy,
so a present-but-empty recorded solution is returned (as a copy). -/
def findSolution (p : PuzzleInstance) : Option (List (List Char)) :=
  if p.solvable then
    match p.solution with
    | some sol => some sol
    | none => none
  else none

/-! ### Basic arithmetic and helper lemmas -/

theorem nextK_lt (t : Nat) : (nextK t).1 < m32 := by
  unfold nextK
  have h32 : m32 = 2 ^ 32 := by norm_num [m32]
  simp only []
  set t' := (t + 0x6D2B79F5) % m32 with ht'
  set a := Nat.xor t' (t' >>> 15) with ha
  set r1 := (a * (t' ||| 1)) % m32 with hr1
  set m := ((Nat.xor r1 (r1 >>> 7)) * (r1 ||| 61)) % m32 with hm
  set r2 := Nat.xor r1 ((r1 + m) % m32) with hr2
  have hr1lt : r1 < m32 := Nat.mod_lt _ (by norm_num [m32])
  have hr2lt : r2 < m32 := by
    rw [hr2, h32] at *
    exact Nat.xor_lt_two_pow hr1lt (Nat.mod_lt _ (by norm_num))
  rw [h32]
  refine Nat.xor_lt_two_pow (h32 ▸ hr2lt) ?_
  rw [Nat.shiftRight_eq_div_pow]
  exact lt_of_le_of_lt (Nat.div_le_self _ _) (h32 ▸ hr2lt)

theorem jsFloorMul_le (k n : Nat) (hk : k < m32) (hn : 1 ≤ n) : jsFloorMul k n ≤ n - 1 := by
  unfold jsFloorMul
  have h : k * n ≤ (m32 - 1) * n := Nat.mul_le_mul_right n (by omega)
  have h2 : (m32 - 1) * n / m32 ≤ n - 1 := by
    rw [Nat.div_le_iff_le_mul_add_pred (by norm_num [m32])]
    have : m32 * (n - 1) + (m32 - 1) = m32 * n - 1 := by
      have : 1 ≤ m32 * n := by
        have := Nat.mul_le_mul (show 1 ≤ m32 by norm_num [m32]) hn
        omega
      rw [Nat.mul_sub_one]
      norm_num [m32]
      omega
    rw [this]
    have : (m32 - 1) * n ≤ m32 * n - n := by
      rw [Nat.sub_one_mul]
    omega
  exact le_trans (Nat.div_le_div_right h) h2

theorem jsFloorMul_lt (k n : Nat) (hk : k < m32) (hn : 1 ≤ n) : jsFloorMul k n < n := by
  have := jsFloorMul_le k n hk hn
  omega

/-- Bounds of `clampInt` when the clamp interval is nonempty. -/
theorem clampInt_bounds (v lo hi : Int) (h : lo ≤ hi) :
    lo ≤ clampInt v lo hi ∧ clampInt v lo hi ≤ hi := by
  unfold clampInt
  constructor
  · exact le_min h (le_max_left _ _)
  · exact min_le_left _ _

/-- The resolved `minLength` and `maxLength` always satisfy
`1 ≤ minLength ≤ 48` and `minLength ≤ maxLength ≤ 64`
(index.ts lines 151-152). -/
theorem resolveSettings_len_bounds (preset : PresetName) (ovr : GenOverrides) (s : Nat) :
    1 ≤ (resolveSettings preset ovr s).1.minLength ∧
    (resolveSettings preset ovr s).1.minLength ≤ 48 ∧
    (resolveSettings preset ovr s).1.minLength ≤ (resolveSettings preset ovr s).1.maxLength ∧
    (resolveSettings preset ovr s).1.maxLength ≤ 64 := by
  have hmin : ∀ v : Int, 1 ≤ clampInt v 1 48 ∧ clampInt v 1 48 ≤ 48 :=
    fun v => clampInt_bounds v 1 48 (by norm_num)
  have hmax : ∀ v lo : Int, lo ≤ 48 → lo ≤ clampInt v lo 64 ∧ clampInt v lo 64 ≤ 64 :=
    fun v lo hlo => clampInt_bounds v lo 64 (by omega)
  unfold resolveSettings
  cases ovr.tileCount with
  | none =>
    simp only []
    refine ⟨(hmin _).1, (hmin _).2, (hmax _ _ (hmin _).2).1, (hmax _ _ (hmin _).2).2⟩
  | some k =>
    simp only []
    refine ⟨(hmin _).1, (hmin _).2, (hmax _ _ (hmin _).2).1, (hmax _ _ (hmin _).2).2⟩

/-- C7.  The settings resolver clamps `minLength` into `[1, 48]` and
`maxLength` into `[minLength, 64]`, so every resolved record has
`maxLength ≥ minLength`; in particular the inverted override pair
`minLength = 5, maxLength = 3` resolves to `(5, 5)` (no error path
exists). -/
theorem C7_resolver_clamps :
    (∀ (preset : PresetName) (ovr : GenOverrides) (s : Nat),
      1 ≤ (resolveSettings preset ovr s).1.minLength ∧
      (resolveSettings preset ovr s).1.minLength ≤ 48 ∧
      (resolveSettings preset ovr s).1.minLength ≤ (resolveSettings preset ovr s).1.maxLength ∧
      (resolveSettings preset ovr s).1.maxLength ≤ 64) ∧
    (∀ (preset : PresetName) (ovr : GenOverrides) (s : Nat),
      (resolveSettings preset { ovr with minLength := some 5, maxLength := some 3 } s).1.minLength = 5 ∧
      (resolveSettings preset { ovr with minLength := some 5, maxLength := some 3 } s).1.maxLength = 5) := by
  constructor
  · exact resolveSettings_len_bounds
  · intro preset ovr s
    unfold resolveSettings
    cases ovr.tileCount with
    | none => simp [clampInt]
    | some k => simp [clampInt]

/-- C8 (amended).  A `tileCount` override is passed through as-is (it is
not clamped, so it may be below 2); only when no override is present is
the value drawn from the preset's tile-count range clamped into
`[2, 24]`. -/
theorem C8_tileCount_amended (preset : PresetName) (ovr : GenOverrides) (s : Nat) :
    (ovr.tileCount = none →
      2 ≤ (resolveSettings preset ovr s).1.tileCount ∧
      (resolveSettings preset ovr s).1.tileCount ≤ 24) ∧
    (∀ k, ovr.tileCount = some k → (resolveSettings preset ovr s).1.tileCount = k) := by
  constructor
  · intro hnone
    unfold resolveSettings
    rw [hnone]
    simp only []
    exact clampInt_bounds _ 2 24 (by norm_num)
  · intro k hk
    unfold resolveSettings
    rw [hk]

/-- C8 witness: with no override present the resolved tile count lands
in `[2, 24]`. -/
theorem C8_tileCount_amended_witness :
    2 ≤ (resolveSettings PresetName.easy {} 0).1.tileCount ∧
    (resolveSettings PresetName.easy {} 0).1.tileCount ≤ 24 :=
  (C8_tileCount_amended PresetName.easy {} 0).1 rfl

/-- C8 counterexample: overriding `tileCount` with 1 produces a resolved
record with `tileCount = 1`, violating the claimed `tileCount ≥ 2`
invariant. -/
theorem C8_tileCount_counterexample :
    (resolveSettings PresetName.easy { tileCount := some 1 } 0).1.tileCount = 1 ∧
    ¬ 2 ≤ (resolveSettings PresetName.easy { tileCount := some 1 } 0).1.tileCount := by
  constructor
  · rfl
  · intro h
    rw [(C8_tileCount_amended PresetName.easy { tileCount := some 1 } 0).2 1 rfl] at h
    omega

/-- `deriveSeed` ignores the system randomness whenever the supplied
seed trims to a nonempty string (index.ts lines 130-136). -/
theorem deriveSeed_of_nonblank (r s : List Char) (h : jsTrim s ≠ []) :
    deriveSeed r (some s) = jsTrim s := by
  have hs : s ≠ [] := by
    intro he
    exact h (by rw [he]; rfl)
  show (if s ≠ [] ∧ jsTrim s ≠ [] then jsTrim s else r) = jsTrim s
  rw [if_pos ⟨hs, h⟩]

/-- C3.  For a seed that trims to a nonempty string, `generatePuzzle` is
a pure function of (preset, seed, overrides): two calls with different
ambient system randomness (the only nondeterministic input, consulted
only on the blank-seed path) return identical instances — same resolved
settings, same tiles in the same display order, same solvable flag, and
same solution. -/
theorem C3_determinism (fuel : Nat) (r1 r2 : List Char) (preset : PresetName)
    (seed : List Char) (ovr : GenOverrides) (h : jsTrim seed ≠ []) :
    generatePuzzle fuel r1 preset (some seed) ovr =
    generatePuzzle fuel r2 preset (some seed) ovr := by
  unfold generatePuzzle
  rw [deriveSeed_of_nonblank r1 seed h, deriveSeed_of_nonblank r2 seed h]

/-- C3 witness at the spec's own example seed. -/
theorem C3_determinism_witness :
    generatePuzzle 0 "x".toList PresetName.easy (some "abc123".toList) {} =
    generatePuzzle 0 "y".toList PresetName.easy (some "abc123".toList) {} :=
  C3_determinism 0 "x".toList "y".toList PresetName.easy "abc123".toList {} (by decide)

/-- On `total = 1` every drawn cut is `1 + Math.floor(rng() * 0) = 1`,
so the cut set never reaches two elements and the cut-drawing loop runs
forever: it exhausts any amount of fuel. -/
theorem drawCuts_total_one_exhausts :
    ∀ (fuel s : Nat) (cuts : List Nat), (cuts = [] ∨ cuts = [1]) →
      drawCuts 0 2 fuel cuts s = none := by
  intro fuel
  induction fuel with
  | zero =>
    intro s cuts hc
    unfold drawCuts
    rcases hc with h | h <;> subst h <;> simp
  | succ f ih =>
    intro s cuts hc
    unfold drawCuts
    have hlen : (cuts.length : Int) < 2 := by
      rcases hc with h | h <;> subst h <;> simp
    rw [if_pos hlen]
    simp only [jsFloorMul, Nat.mul_zero, Nat.zero_div]
    have hins : insertCut (1 + 0) cuts = [1] := by
      rcases hc with h | h <;> subst h <;> rfl
    rw [hins]
    exact ih _ [1] (Or.inr rfl)

/-- C5 (amended).  The enumerated retry ceilings (100 outer attempts, 50
partition-pair tries, 60 target-string tries, 100 partition attempts, 50
unsolvable-tile retries) are the literal loop bounds of the embedding,
but the cut-point drawing loop of `randomPartition` has no ceiling: on
`total = 1, count = 3` it never terminates, outliving every fuel bound,
so termination of the generator is not a consequence of hard ceilings. -/
theorem C5_cut_loop_unbounded (fuel s : Nat) :
    randomPartition fuel s 1 3 0 1 = none := by
  unfold randomPartition
  rw [if_neg (by norm_num)]
  unfold partitionAttempts
  rw [show ((1 : Int) - 1).toNat = 0 from rfl, show (3 : Int) - 1 = 2 from rfl,
    drawCuts_total_one_exhausts fuel s [] (Or.inl rfl)]

/-- C5 counterexample: after a billion iterations — far beyond every
ceiling the claim enumerates — the cut-drawing loop of
`randomPartition(rng, 1, 3, 0, 1)` is still running. -/
theorem C5_cut_loop_counterexample :
    randomPartition 1000000000 987654321 1 3 0 1 = none :=
  C5_cut_loop_unbounded 1000000000 987654321

/-! ### Partition correctness (C6) -/

theorem insertCut_length (x : Nat) (l : List Nat) :
    (insertCut x l).length = l.length ∨ (insertCut x l).length = l.length + 1 := by
  induction l with
  | nil => right; rfl
  | cons y ys ih =>
    unfold insertCut
    by_cases h1 : x < y
    · rw [if_pos h1]; right; rfl
    · rw [if_neg h1]
      by_cases h2 : x = y
      · rw [if_pos h2]; left; rfl
      · rw [if_neg h2]
        rcases ih with h | h
        · left; simpa using h
        · right; simpa using h

theorem drawCuts_len (t1 : Nat) (target : Int) :
    ∀ (fuel : Nat) (cuts : List Nat) (s : Nat) (r : List Nat) (s' : Nat),
      drawCuts t1 target fuel cuts s = some (r, s') →
      target ≤ (r.length : Int) ∧ (r.length : Int) ≤ max (cuts.length : Int) target := by
  intro fuel
  induction fuel with
  | zero =>
    intro cuts s r s' h
    unfold drawCuts at h
    by_cases hc : (cuts.length : Int) < target
    · rw [if_pos hc] at h; exact absurd h (by simp)
    · rw [if_neg hc] at h
      injection h with h'
      injection h' with h1 h2
      subst h1
      exact ⟨le_of_not_lt hc, le_max_left _ _⟩
  | succ f ih =>
    intro cuts s r s' h
    unfold drawCuts at h
    by_cases hc : (cuts.length : Int) < target
    · rw [if_pos hc] at h
      simp only [] at h
      have := ih (insertCut (1 + jsFloorMul (nextK s).1 t1) cuts) (nextK s).2 r s' h
      refine ⟨this.1, ?_⟩
      have hlen := insertCut_length (1 + jsFloorMul (nextK s).1 t1) cuts
      have hle : ((insertCut (1 + jsFloorMul (nextK s).1 t1) cuts).length : Int) ≤ target := by
        rcases hlen with he | he <;> rw [he] <;> push_cast <;> omega
      have : (r.length : Int) ≤ target := le_trans this.2 (by omega)
      omega
    · rw [if_neg hc] at h
      injection h with h'
      injection h' with h1 h2
      subst h1
      exact ⟨le_of_not_lt hc, le_max_left _ _⟩

theorem lensFrom_mem (mn mx : Int) :
    ∀ (l : List Int) (prev : Int) (ds : List Int),
      lensFrom mn mx prev l = some ds → ∀ d ∈ ds, mn ≤ d ∧ d ≤ mx := by
  intro l
  induction l with
  | nil =>
    intro prev ds h d hd
    unfold lensFrom at h
    injection h with h'
    subst h'
    exact absurd hd (by simp)
  | cons c rest ih =>
    intro prev ds h d hd
    unfold lensFrom at h
    by_cases hcond : mn ≤ c - prev ∧ c - prev ≤ mx
    · rw [if_pos hcond] at h
      cases hrec : lensFrom mn mx c rest with
      | none => rw [hrec] at h; exact absurd h (by simp)
      | some ds' =>
        rw [hrec] at h
        injection h with h'
        subst h'
        rcases List.mem_cons.mp hd with he | hm
        · subst he; exact hcond
        · exact ih c ds' hrec d hm
    · rw [if_neg hcond] at h
      exact absurd h (by simp)

theorem lensFrom_len (mn mx : Int) :
    ∀ (l : List Int) (prev : Int) (ds : List Int),
      lensFrom mn mx prev l = some ds → ds.length = l.length := by
  intro l
  induction l with
  | nil =>
    intro prev ds h
    unfold lensFrom at h
    injection h with h'
    subst h'
    rfl
  | cons c rest ih =>
    intro prev ds h
    unfold lensFrom at h
    by_cases hcond : mn ≤ c - prev ∧ c - prev ≤ mx
    · rw [if_pos hcond] at h
      cases hrec : lensFrom mn mx c rest with
      | none => rw [hrec] at h; exact absurd h (by simp)
      | some ds' =>
        rw [hrec] at h
        injection h with h'
        subst h'
        simp [ih c ds' hrec]
    · rw [if_neg hcond] at h
      exact absurd h (by simp)

theorem lensFrom_sum (mn mx : Int) :
    ∀ (l : List Int) (prev : Int) (ds : List Int),
      lensFrom mn mx prev l = some ds → prev + ds.sum = l.getLastD prev := by
  intro l
  induction l with
  | nil =>
    intro prev ds h
    unfold lensFrom at h
    injection h with h'
    subst h'
    simp
  | cons c rest ih =>
    intro prev ds h
    unfold lensFrom at h
    by_cases hcond : mn ≤ c - prev ∧ c - prev ≤ mx
    · rw [if_pos hcond] at h
      cases hrec : lensFrom mn mx c rest with
      | none => rw [hrec] at h; exact absurd h (by simp)
      | some ds' =>
        rw [hrec] at h
        injection h with h'
        subst h'
        have := ih c ds' hrec
        rw [List.getLastD_cons]
        rw [← this]
        simp
        ring
    · rw [if_neg hcond] at h
      exact absurd h (by simp)

theorem partitionAttempts_spec (fuel : Nat) (total count minLen maxLen : Int)
    (hfe : ¬(total < count * minLen ∨ total > count * maxLen)) (hmn : 1 ≤ minLen) :
    ∀ (attempts s : Nat) (lens : List Int) (s' : Nat),
      partitionAttempts fuel total count minLen maxLen s attempts = some (some lens, s') →
      (lens.length : Int) = count ∧ lens.sum = total ∧
      ∀ x ∈ lens, minLen ≤ x ∧ x ≤ maxLen ∧ 0 < x := by
  intro attempts
  induction attempts with
  | zero =>
    intro s lens s' h
    unfold partitionAttempts at h
    injection h with h'
    exact absurd h' (by simp)
  | succ a ih =>
    intro s lens s' h
    unfold partitionAttempts at h
    cases hdc : drawCuts (total - 1).toNat (count - 1) fuel [] s with
    | none => rw [hdc] at h; exact absurd h (by simp)
    | some cs =>
      obtain ⟨cuts, s1⟩ := cs
      rw [hdc] at h
      simp only [] at h
      cases hlf : lensFrom minLen maxLen 0 ((cuts.map (Int.ofNat)) ++ [total]) with
      | none =>
        rw [hlf] at h
        exact ih s1 lens s' h
      | some ds =>
        rw [hlf] at h
        injection h with h'
        injection h' with h1 h2
        have hds : ds = lens := by injection h1
        subst hds
        have hlen := drawCuts_len (total - 1).toNat (count - 1) fuel [] s cuts s1 hdc
        simp only [List.length_nil, Nat.cast_zero] at hlen
        have hdslen := lensFrom_len minLen maxLen _ 0 _ hlf
        have hmem := lensFrom_mem minLen maxLen _ 0 _ hlf
        have hsum := lensFrom_sum minLen maxLen _ 0 _ hlf
        have hlast : ((cuts.map (Int.ofNat)) ++ [total]).getLastD 0 = total := by
          simp
        rw [hlast] at hsum
        have hmem' : ∀ x ∈ ds, minLen ≤ x ∧ x ≤ maxLen ∧ 0 < x := by
          intro x hx
          have := hmem x hx
          exact ⟨this.1, this.2, by omega⟩
        have hnonempty : ds ≠ [] := by
          intro he
          rw [he] at hdslen
          simp at hdslen
        have hsumpos : 0 < ds.sum := by
          have h0 : ∀ x ∈ ds, 0 ≤ x := fun x hx => le_of_lt (hmem' x hx).2.2
          cases ds with
          | nil => exact absurd rfl hnonempty
          | cons d rest =>
            have hd := (hmem' d (by simp)).2.2
            have hrest : 0 ≤ rest.sum :=
              List.sum_nonneg (fun x hx => h0 x (by simp [hx]))
            simp only [List.sum_cons]
            omega
        have hcount1 : 1 ≤ count := by
          by_contra hneg
          push_neg at hneg
          have hmax0 : 0 ≤ maxLen := by
            cases ds with
            | nil => exact absurd rfl hnonempty
            | cons d rest =>
              have := hmem' d (by simp)
              omega
          have hprod : count * maxLen ≤ 0 := by nlinarith
          have htle : total ≤ count * maxLen := by
            push_neg at hfe
            exact not_lt.mp (by simpa using hfe.2)
          omega
        have hcs : (cuts.length : Int) = count - 1 := by
          have : max 0 (count - 1) = count - 1 := by omega
          omega
        refine ⟨?_, by omega, hmem'⟩
        rw [hdslen]
        simp only [List.length_append, List.length_map, List.length_singleton]
        push_cast
        omega

/-- C6 (amended).  `randomPartition` returns the failure value
immediately when `total < count*minLen` or `total > count*maxLen`; and
whenever `minLen ≥ 1` (as at every call site of the engine), any
returned partition is a sequence of exactly `count` positive integers,
each in `[minLen, maxLen]`, summing to `total`. -/
theorem C6_randomPartition_amended (fuel s : Nat) (total count minLen maxLen : Int)
    (hmn : 1 ≤ minLen) :
    (total < count * minLen ∨ total > count * maxLen →
      randomPartition fuel s total count minLen maxLen = some (none, s)) ∧
    (∀ (lens : List Int) (s' : Nat),
      randomPartition fuel s total count minLen maxLen = some (some lens, s') →
      (lens.length : Int) = count ∧ lens.sum = total ∧
      ∀ x ∈ lens, minLen ≤ x ∧ x ≤ maxLen ∧ 0 < x) := by
  constructor
  · intro hinf
    unfold randomPartition
    rw [if_pos hinf]
  · intro lens s' h
    unfold randomPartition at h
    by_cases hinf : total < count * minLen ∨ total > count * maxLen
    · rw [if_pos hinf] at h
      injection h with h'
      injection h' with h1 h2
      exact absurd h1 (by simp)
    · rw [if_neg hinf] at h
      exact partitionAttempts_spec fuel total count minLen maxLen hinf hmn 100 s lens s' h

/-- C6 witness: a concrete successful partition of 6 into 3 parts with
bounds `[2, 3]` satisfies every clause. -/
theorem C6_randomPartition_amended_witness :
    ((List.length [(2 : Int), 2, 2] : Int) = 3 ∧ List.sum [(2 : Int), 2, 2] = 6 ∧
      ∀ x ∈ [(2 : Int), 2, 2], 2 ≤ x ∧ x ≤ 3 ∧ 0 < x) :=
  (C6_randomPartition_amended 10 12345 6 3 2 3 (by norm_num)).2 [2, 2, 2] 440024424 (by decide)

/-- C6 counterexample: with `minLen = 0` the partitioner can return the
partition `[1, 0]` of `total = 1` into `count = 2` parts — the entries
lie in `[minLen, maxLen]` and sum to `total`, but the entry 0 is not
positive, refuting the claim's unconditional "positive integers". -/
theorem C6_randomPartition_counterexample :
    randomPartition 10 12345 1 2 0 3 = some (some [1, 0], 1831578158) ∧
    (0 : Int) ∈ [(1 : Int), 0] ∧ ¬ (0 : Int) < 0 := by
  refine ⟨by decide, by decide, by omega⟩

/-! ### Validator correctness (C2) -/

/-- The tile a given id refers to: the last tile carrying that id (the
JS `Map` keeps the last entry for a duplicated key). -/
def refTile (tiles : List Tile) (id : List Char) : Tile :=
  (lookupLast tiles id).getD default

theorem lookupLast_foldl_acc (id : List Char) :
    ∀ (ts : List Tile) (acc : Option Tile),
      ts.foldl (fun acc t => if t.id == id then some t else acc) acc =
      match ts.foldl (fun acc t => if t.id == id then some t else acc) none with
      | some u => some u
      | none => acc := by
  intro ts
  induction ts with
  | nil => intro acc; rfl
  | cons t ts ih =>
    intro acc
    simp only [List.foldl_cons]
    rw [ih (if t.id == id then some t else acc), ih (if t.id == id then some t else none)]
    cases ts.foldl (fun acc t => if t.id == id then some t else acc) none with
    | some u => rfl
    | none => by_cases h : t.id == id <;> simp [h]

theorem lookupLast_cons (t : Tile) (ts : List Tile) (id : List Char) :
    lookupLast (t :: ts) id =
      match lookupLast ts id with
      | some u => some u
      | none => if t.id == id then some t else none := by
  unfold lookupLast
  simp only [List.foldl_cons]
  rw [lookupLast_foldl_acc id ts (if t.id == id then some t else none)]

theorem lookupLast_mem (id : List Char) :
    ∀ (ts : List Tile) (u : Tile), lookupLast ts id = some u → u ∈ ts ∧ u.id = id := by
  intro ts
  induction ts with
  | nil => intro u h; exact absurd h (by simp [lookupLast])
  | cons t ts ih =>
    intro u h
    rw [lookupLast_cons] at h
    cases hrec : lookupLast ts id with
    | some v =>
      rw [hrec] at h
      injection h with h'
      subst h'
      have := ih v hrec
      exact ⟨List.mem_cons_of_mem t this.1, this.2⟩
    | none =>
      rw [hrec] at h
      by_cases hb : t.id == id
      · rw [if_pos hb] at h
        injection h with h'
        subst h'
        exact ⟨List.mem_cons_self _ _, by simpa using hb⟩
      · rw [if_neg hb] at h
        exact absurd h (by simp)

theorem lookupLast_isSome (id : List Char) :
    ∀ ts : List Tile, (∃ t ∈ ts, t.id = id) → (lookupLast ts id).isSome := by
  intro ts
  induction ts with
  | nil => intro h; simp at h
  | cons t ts ih =>
    intro h
    rw [lookupLast_cons]
    cases hrec : lookupLast ts id with
    | some v => simp
    | none =>
      rcases h with ⟨u, hu, hid⟩
      rcases List.mem_cons.mp hu with he | hm
      · subst he
        rw [if_pos (by simpa using hid)]
        simp
      · have := ih ⟨u, hm, hid⟩
        rw [hrec] at this
        simp at this

theorem validateGo_iff (tiles : List Tile) :
    ∀ (order : List (List Char)) (top bottom : List Char),
      validateGo tiles order top bottom = true ↔
        ((∀ id ∈ order, ∃ t ∈ tiles, t.id = id) ∧
         top ++ (order.map (fun id => (refTile tiles id).top)).join =
         bottom ++ (order.map (fun id => (refTile tiles id).bottom)).join) := by
  intro order
  induction order with
  | nil =>
    intro top bottom
    unfold validateGo
    simp [beq_iff_eq]
  | cons oid rest ih =>
    intro top bottom
    unfold validateGo
    cases h : lookupLast tiles oid with
    | none =>
      simp only []
      constructor
      · intro hfalse
        exact absurd hfalse (by simp)
      · rintro ⟨hmem, -⟩
        have := lookupLast_isSome oid tiles (hmem oid (by simp))
        rw [h] at this
        simp at this
    | some t =>
      simp only []
      rw [ih (top ++ t.top) (bottom ++ t.bottom)]
      have href : refTile tiles oid = t := by
        unfold refTile
        rw [h]
        rfl
      constructor
      · rintro ⟨hmem, heq⟩
        refine ⟨?_, ?_⟩
        · intro id' hid'
          rcases List.mem_cons.mp hid' with he | hm
          · rw [he]
            exact ⟨t, (lookupLast_mem oid tiles t h).1, (lookupLast_mem oid tiles t h).2⟩
          · exact hmem id' hm
        · simp only [List.map_cons, List.join_cons, href]
          rw [← List.append_assoc, ← List.append_assoc]
          exact heq
      · rintro ⟨hmem, heq⟩
        refine ⟨fun id' hid' => hmem id' (List.mem_cons_of_mem _ hid'), ?_⟩
        simp only [List.map_cons, List.join_cons, href] at heq
        rw [← List.append_assoc, ← List.append_assoc] at heq
        exact heq

/-- C2.  `validateSolution` returns `true` exactly when the ordering is
nonempty, every id occurs among the instance's tiles, and the in-order
concatenation of the referenced tiles' tops equals that of their
bottoms.  No distinctness, coverage, or tile-count requirement appears. -/
theorem C2_validator_iff (p : PuzzleInstance) (order : List (List Char)) :
    validateSolution p order = true ↔
      order ≠ [] ∧ (∀ id ∈ order, ∃ t ∈ p.tiles, t.id = id) ∧
      (order.map (fun id => (refTile p.tiles id).top)).join =
      (order.map (fun id => (refTile p.tiles id).bottom)).join := by
  unfold validateSolution
  by_cases he : order.isEmpty
  · rw [if_pos he]
    have : order = [] := List.isEmpty_iff.mp he
    subst this
    simp
  · rw [if_neg he]
    rw [validateGo_iff p.tiles order [] []]
    have : order ≠ [] := by
      intro h
      subst h
      exact he rfl
    simp [this]

/-! ### Tile identifiers: digits and the embedded construction index -/

/-- Numeric value of a decimal digit character. -/
def digitVal (c : Char) : Nat := c.toNat - 48

/-- Value of a decimal digit string (most significant first). -/
def decimalVal (l : List Char) : Nat := l.foldl (fun a c => 10 * a + digitVal c) 0

/-- The id string produced by `makeId` for construction index `i` and
suffix value `k`. -/
def makeIdStr (i k : Nat) : List Char :=
  "tile-".toList ++ natToBase 10 i ++ '-' :: natToBase 36 k

/-- The construction index embedded in a tile id: the decimal digits
between the `tile-` marker and the following dash. -/
def parseIdx (id : List Char) : Nat :=
  decimalVal ((id.drop 5).takeWhile Char.isDigit)

theorem makeId_eq (s idx : Nat) :
    makeId s idx = (makeIdStr idx (jsFloorMul (nextK s).1 1000000), (nextK s).2) := rfl

theorem digitChar36_isDigit (d : Nat) (h : d < 10) : (digitChar36 d).isDigit = true := by
  interval_cases d <;> decide

theorem digitVal_digitChar36 (d : Nat) (h : d < 10) : digitVal (digitChar36 d) = d := by
  interval_cases d <;> decide

theorem natToBaseF_ten_digits :
    ∀ (fuel n : Nat), n ≤ fuel → ∀ c ∈ natToBaseF fuel 10 n, c.isDigit = true := by
  intro fuel
  induction fuel with
  | zero =>
    intro n hn c hc
    have h0 : n = 0 := by omega
    subst h0
    simp only [natToBaseF, List.mem_singleton] at hc
    subst hc
    decide
  | succ f ih =>
    intro n hn c hc
    unfold natToBaseF at hc
    by_cases h : n < 10 ∨ 10 ≤ 1
    · rw [if_pos h] at hc
      simp only [List.mem_singleton] at hc
      subst hc
      exact digitChar36_isDigit n (by omega)
    · rw [if_neg h] at hc
      rcases List.mem_append.mp hc with hm | hm
      · exact ih (n / 10) (by omega) c hm
      · simp only [List.mem_singleton] at hm
        subst hm
        exact digitChar36_isDigit (n % 10) (Nat.mod_lt _ (by omega))

theorem natToBase_ten_digits : ∀ n : Nat, ∀ c ∈ natToBase 10 n, c.isDigit = true :=
  fun n => natToBaseF_ten_digits n n (le_refl n)

theorem decimalVal_append_singleton (xs : List Char) (c : Char) :
    decimalVal (xs ++ [c]) = 10 * decimalVal xs + digitVal c := by
  unfold decimalVal
  rw [List.foldl_append]
  rfl

theorem natToBaseF_val :
    ∀ (fuel n : Nat), n ≤ fuel → decimalVal (natToBaseF fuel 10 n) = n := by
  intro fuel
  induction fuel with
  | zero =>
    intro n hn
    have h0 : n = 0 := by omega
    subst h0
    decide
  | succ f ih =>
    intro n hn
    unfold natToBaseF
    by_cases h : n < 10 ∨ 10 ≤ 1
    · rw [if_pos h]
      have hd : n < 10 := by omega
      show decimalVal ([] ++ [digitChar36 n]) = n
      rw [decimalVal_append_singleton]
      simp [decimalVal, digitVal_digitChar36 n hd]
    · rw [if_neg h]
      rw [decimalVal_append_singleton, ih (n / 10) (by omega),
        digitVal_digitChar36 (n % 10) (Nat.mod_lt _ (by omega))]
      omega

theorem decimalVal_natToBase : ∀ n : Nat, decimalVal (natToBase 10 n) = n :=
  fun n => natToBaseF_val n n (le_refl n)

theorem takeWhile_append_stop (p : Char → Bool) :
    ∀ (a : List Char), (∀ c ∈ a, p c = true) → ∀ (x : Char) (y : List Char), p x = false →
      (a ++ x :: y).takeWhile p = a := by
  intro a
  induction a with
  | nil =>
    intro _ x y hx
    simp [List.takeWhile_cons, hx]
  | cons c a ih =>
    intro ha x y hx
    have hc : p c = true := ha c (by simp)
    have htail := ih (fun d hd => ha d (by simp [hd])) x y hx
    simp [List.takeWhile_cons, hc, htail]

theorem parseIdx_makeIdStr (i k : Nat) : parseIdx (makeIdStr i k) = i := by
  unfold parseIdx makeIdStr
  show decimalVal (List.takeWhile Char.isDigit
      (List.drop 5 ("tile-".toList ++ (natToBase 10 i ++ '-' :: natToBase 36 k)))) = i
  have hdrop : List.drop 5 ("tile-".toList ++ (natToBase 10 i ++ '-' :: natToBase 36 k))
      = natToBase 10 i ++ '-' :: natToBase 36 k := by
    have : "tile-".toList = ['t', 'i', 'l', 'e', '-'] := rfl
    rw [this]
    rfl
  rw [hdrop, takeWhile_append_stop Char.isDigit (natToBase 10 i)
    (natToBase_ten_digits i) '-' (natToBase 36 k) (by decide)]
  exact decimalVal_natToBase i

/-! ### Slice arithmetic -/

theorem slice_concat (t : List Char) (a x y : Nat) :
    (t.take (a + x)).drop a ++ (t.take (a + x + y)).drop (a + x) = (t.take (a + x + y)).drop a := by
  have h1 : t.take (a + x) = (t.take (a + x + y)).take (a + x) := by
    rw [List.take_take]
    congr 1
    omega
  rw [h1]
  set v := t.take (a + x + y) with hv
  rw [List.drop_take]
  have h2 : a + x - a = x := by omega
  rw [h2]
  have h3 : v.drop (a + x) = (v.drop a).drop x := by
    rw [List.drop_drop]
    try congr 1
    try omega
  rw [h3]
  exact List.take_append_drop x (v.drop a)

theorem jsSliceI_append (t : List Char) (o x y : Int) (ho : 0 ≤ o) (hx : 0 ≤ x) (hy : 0 ≤ y) :
    jsSliceI t o (o + x) ++ jsSliceI t (o + x) (o + x + y) = jsSliceI t o (o + x + y) := by
  unfold jsSliceI
  rw [show (o + x).toNat = o.toNat + x.toNat from Int.toNat_add ho hx,
    show (o + x + y).toNat = o.toNat + x.toNat + y.toNat from by
      rw [Int.toNat_add (by omega) hy, Int.toNat_add ho hx]]
  exact slice_concat t o.toNat x.toNat y.toNat

theorem jsSliceI_self (t : List Char) (o : Int) : jsSliceI t o o = [] := by
  apply List.eq_nil_of_length_eq_zero
  simp only [jsSliceI, List.length_drop, List.length_take]
  omega

theorem jsSliceI_length (t : List Char) (a x : Int) (ha : 0 ≤ a) (hx : 0 ≤ x)
    (hroom : a + x ≤ (t.length : Int)) : ((jsSliceI t a (a + x)).length : Int) = x := by
  simp only [jsSliceI, List.length_drop, List.length_take]
  omega

/-! ### Indexed partial sums of a partition -/

/-- Sum of `n` partition entries starting at index `idx` (`getD` with
default 0, exactly as the tile loop reads them). -/
def sumIdxFrom (tp : List Int) : Nat → Nat → Int
  | _, 0 => 0
  | idx, n + 1 => tp.getD idx 0 + sumIdxFrom tp (idx + 1) n

theorem getD_zero_nonneg (l : List Int) (h : ∀ x ∈ l, 0 ≤ x) (j : Nat) : 0 ≤ l.getD j 0 := by
  rw [List.getD_eq_getElem?_getD]
  cases he : l[j]? with
  | none => simp
  | some v =>
    obtain ⟨hj, hv⟩ := List.getElem?_eq_some.mp he
    have hm : v ∈ l := hv ▸ List.getElem_mem hj
    simpa using h v hm

theorem sumIdxFrom_nonneg (tp : List Int) (h : ∀ x ∈ tp, 0 ≤ x) :
    ∀ (n idx : Nat), 0 ≤ sumIdxFrom tp idx n := by
  intro n
  induction n with
  | zero => intro idx; simp [sumIdxFrom]
  | succ n ih =>
    intro idx
    have h1 := getD_zero_nonneg tp h idx
    have h2 := ih (idx + 1)
    unfold sumIdxFrom
    omega

theorem sumIdxFrom_eq (tp : List Int) :
    ∀ (n idx : Nat), sumIdxFrom tp idx n = ((tp.drop idx).take n).sum := by
  intro n
  induction n with
  | zero => intro idx; simp [sumIdxFrom]
  | succ n ih =>
    intro idx
    unfold sumIdxFrom
    rw [ih (idx + 1)]
    cases hd : tp.drop idx with
    | nil =>
      have hlen : tp.length ≤ idx := by
        have := List.drop_eq_nil_iff.mp hd
        omega
      have h1 : tp.getD idx 0 = 0 := by
        have hn : tp[idx]? = none := List.getElem?_eq_none (by omega)
        rw [List.getD_eq_getElem?_getD, hn]
        rfl
      have h2 : tp.drop (idx + 1) = [] := List.drop_eq_nil_iff.mpr (by omega)
      rw [h1, h2]
      simp
    | cons c rest =>
      have h1 : tp.getD idx 0 = c := by
        have hidx : tp[idx]? = (tp.drop idx)[0]? := by
          rw [List.getElem?_drop]
          simp
        rw [List.getD_eq_getElem?_getD, hidx, hd]
        simp
      have h2 : tp.drop (idx + 1) = rest := by
        have hstep : tp.drop (idx + 1) = (tp.drop idx).drop 1 := by
          rw [List.drop_drop]
        rw [hstep, hd]
        rfl
      rw [h1, h2]
      simp

theorem sumIdxFrom_full (tp : List Int) : sumIdxFrom tp 0 tp.length = tp.sum := by
  rw [sumIdxFrom_eq]
  simp

theorem sumIdxFrom_le_sum (tp : List Int) (h : ∀ x ∈ tp, 0 ≤ x) (n : Nat) :
    sumIdxFrom tp 0 n ≤ tp.sum := by
  rw [sumIdxFrom_eq]
  simp only [List.drop_zero]
  calc (tp.take n).sum ≤ (tp.take n).sum + (tp.drop n).sum := by
        have : 0 ≤ (tp.drop n).sum :=
          List.sum_nonneg (fun x hx => h x (List.mem_of_mem_drop hx))
        omega
    _ = tp.sum := by rw [← List.sum_append, List.take_append_drop]

/-! ### The tile slicing loop -/

theorem tileLoop_spec (target : List Char) (tp bp : List Int)
    (htp : ∀ x ∈ tp, 0 ≤ x) (hbp : ∀ x ∈ bp, 0 ≤ x) :
    ∀ (n idx : Nat) (topOff botOff : Int) (seen : List (List Char)) (s : Nat)
      (tiles : List Tile) (s' : Nat),
      tileLoop target tp bp idx n topOff botOff seen s = (some tiles, s') →
      0 ≤ topOff → 0 ≤ botOff →
      (tiles.length = n ∧
       tiles.map (fun t => parseIdx t.id) = List.range' idx n ∧
       (∀ t ∈ tiles, ∃ i k, t.id = makeIdStr i k) ∧
       (tiles.map Tile.top).join = jsSliceI target topOff (topOff + sumIdxFrom tp idx n) ∧
       (tiles.map Tile.bottom).join = jsSliceI target botOff (botOff + sumIdxFrom bp idx n) ∧
       (∀ t ∈ tiles, t.top ≠ t.bottom)) := by
  intro n
  induction n with
  | zero =>
    intro idx topOff botOff seen s tiles s' h hto hbo
    unfold tileLoop at h
    injection h with h1 h2
    injection h1 with h1
    subst h1
    refine ⟨rfl, rfl, by simp, ?_, ?_, by simp⟩
    · show ([] : List Char) = jsSliceI target topOff (topOff + sumIdxFrom tp idx 0)
      rw [show sumIdxFrom tp idx 0 = 0 from rfl, add_zero, jsSliceI_self]
    · show ([] : List Char) = jsSliceI target botOff (botOff + sumIdxFrom bp idx 0)
      rw [show sumIdxFrom bp idx 0 = 0 from rfl, add_zero, jsSliceI_self]
  | succ n ih =>
    intro idx topOff botOff seen s tiles s' h hto hbo
    rw [show tileLoop target tp bp idx (n + 1) topOff botOff seen s =
      (let topLen := tp.getD idx 0
       let botLen := bp.getD idx 0
       let topSlice := jsSliceI target topOff (topOff + topLen)
       let botSlice := jsSliceI target botOff (botOff + botLen)
       let key := topSlice ++ '|' :: botSlice
       if seen.contains key || topSlice == botSlice then (none, s)
       else
         let (id, s1) := makeId s idx
         match tileLoop target tp bp (idx + 1) n (topOff + topLen) (botOff + botLen)
             (key :: seen) s1 with
         | (none, s2) => (none, s2)
         | (some rest, s2) => (some (⟨id, topSlice, botSlice⟩ :: rest), s2)) from rfl] at h
    simp only [] at h
    set topLen := tp.getD idx 0 with htl
    set botLen := bp.getD idx 0 with hbl
    set topSlice := jsSliceI target topOff (topOff + topLen) with hts
    set botSlice := jsSliceI target botOff (botOff + botLen) with hbs
    set key := topSlice ++ '|' :: botSlice with hkey
    by_cases hbad : (seen.contains key || topSlice == botSlice) = true
    · rw [if_pos hbad] at h
      injection h with h1 h2
      exact absurd h1 (by simp)
    · rw [if_neg hbad] at h
      rw [makeId_eq] at h
      simp only [] at h
      cases hrec : tileLoop target tp bp (idx + 1) n (topOff + topLen) (botOff + botLen)
          (key :: seen) (nextK s).2 with
      | mk restO s2 =>
        rw [hrec] at h
        cases restO with
        | none =>
          simp only [] at h
          injection h with h1 h2
          exact absurd h1 (by simp)
        | some rest =>
          simp only [] at h
          injection h with h1 h2
          have htiles : tiles = ⟨makeIdStr idx (jsFloorMul (nextK s).1 1000000),
              topSlice, botSlice⟩ :: rest := by
            injection h1 with h1
            exact h1.symm
          subst htiles
          subst h2
          have htlnn : 0 ≤ topLen := getD_zero_nonneg tp htp idx
          have hblnn : 0 ≤ botLen := getD_zero_nonneg bp hbp idx
          obtain ⟨ihlen, ihparse, ihform, ihtop, ihbot, ihne⟩ :=
            ih (idx + 1) (topOff + topLen) (botOff + botLen) (key :: seen) (nextK s).2
              rest s2 hrec (by omega) (by omega)
          refine ⟨by simp [ihlen], ?_, ?_, ?_, ?_, ?_⟩
          · simp only [List.map_cons, ihparse, parseIdx_makeIdStr]
            rw [List.range'_succ]
          · intro t ht
            rcases List.mem_cons.mp ht with he | hm
            · subst he
              exact ⟨idx, jsFloorMul (nextK s).1 1000000, rfl⟩
            · exact ihform t hm
          · simp only [List.map_cons, List.join_cons, ihtop]
            have hsum : sumIdxFrom tp idx (n + 1) = topLen + sumIdxFrom tp (idx + 1) n := rfl
            rw [hsum]
            have := jsSliceI_append target topOff topLen (sumIdxFrom tp (idx + 1) n)
              hto htlnn (sumIdxFrom_nonneg tp htp n (idx + 1))
            rw [show topOff + (topLen + sumIdxFrom tp (idx + 1) n) =
              topOff + topLen + sumIdxFrom tp (idx + 1) n from by ring]
            exact this
          · simp only [List.map_cons, List.join_cons, ihbot]
            have hsum : sumIdxFrom bp idx (n + 1) = botLen + sumIdxFrom bp (idx + 1) n := rfl
            rw [hsum]
            have := jsSliceI_append target botOff botLen (sumIdxFrom bp (idx + 1) n)
              hbo hblnn (sumIdxFrom_nonneg bp hbp n (idx + 1))
            rw [show botOff + (botLen + sumIdxFrom bp (idx + 1) n) =
              botOff + botLen + sumIdxFrom bp (idx + 1) n from by ring]
            exact this
          · intro t ht
            rcases List.mem_cons.mp ht with he | hm
            · subst he
              intro hcontra
              apply hbad
              simp only [Bool.or_eq_true, beq_iff_eq]
              right
              exact hcontra
            · exact ihne t hm

theorem getD_mem_of_lt (l : List Int) (j : Nat) (hj : j < l.length) : l.getD j 0 ∈ l := by
  rw [List.getD_eq_getElem?_getD, List.getElem?_eq_getElem hj]
  exact List.getElem_mem hj

/-- Per-tile length bounds of the slicing loop: when the partitions'
entries read by the loop are in `[mn, mx]` and the slices never run past
the end of the target, every produced tile has top and bottom lengths in
`[mn, mx]`. -/
theorem tileLoop_lengths (target : List Char) (tp bp : List Int) (mn mx : Int)
    (htp : ∀ x ∈ tp, mn ≤ x ∧ x ≤ mx ∧ 0 < x) (hbp : ∀ x ∈ bp, mn ≤ x ∧ x ≤ mx ∧ 0 < x) :
    ∀ (n idx : Nat) (topOff botOff : Int) (seen : List (List Char)) (s : Nat)
      (tiles : List Tile) (s' : Nat),
      tileLoop target tp bp idx n topOff botOff seen s = (some tiles, s') →
      0 ≤ topOff → 0 ≤ botOff →
      idx + n ≤ tp.length → idx + n ≤ bp.length →
      topOff + sumIdxFrom tp idx n ≤ (target.length : Int) →
      botOff + sumIdxFrom bp idx n ≤ (target.length : Int) →
      ∀ t ∈ tiles, mn ≤ (t.top.length : Int) ∧ (t.top.length : Int) ≤ mx ∧
                   mn ≤ (t.bottom.length : Int) ∧ (t.bottom.length : Int) ≤ mx := by
  have htp0 : ∀ x ∈ tp, 0 ≤ x := fun x hx => le_of_lt (htp x hx).2.2
  have hbp0 : ∀ x ∈ bp, 0 ≤ x := fun x hx => le_of_lt (hbp x hx).2.2
  intro n
  induction n with
  | zero =>
    intro idx topOff botOff seen s tiles s' h hto hbo _ _ _ _ t ht
    unfold tileLoop at h
    injection h with h1 h2
    injection h1 with h1
    subst h1
    exact absurd ht (by simp)
  | succ n ih =>
    intro idx topOff botOff seen s tiles s' h hto hbo hrt hrb hroomT hroomB t ht
    rw [show tileLoop target tp bp idx (n + 1) topOff botOff seen s =
      (let topLen := tp.getD idx 0
       let botLen := bp.getD idx 0
       let topSlice := jsSliceI target topOff (topOff + topLen)
       let botSlice := jsSliceI target botOff (botOff + botLen)
       let key := topSlice ++ '|' :: botSlice
       if seen.contains key || topSlice == botSlice then (none, s)
       else
         let (id, s1) := makeId s idx
         match tileLoop target tp bp (idx + 1) n (topOff + topLen) (botOff + botLen)
             (key :: seen) s1 with
         | (none, s2) => (none, s2)
         | (some rest, s2) => (some (⟨id, topSlice, botSlice⟩ :: rest), s2)) from rfl] at h
    simp only [] at h
    set topLen := tp.getD idx 0 with htl
    set botLen := bp.getD idx 0 with hbl
    set topSlice := jsSliceI target topOff (topOff + topLen) with hts
    set botSlice := jsSliceI target botOff (botOff + botLen) with hbs
    set key := topSlice ++ '|' :: botSlice with hkey
    have htlmem := getD_mem_of_lt tp idx (by omega)
    have hblmem := getD_mem_of_lt bp idx (by omega)
    have htlB := htp _ htlmem
    have hblB := hbp _ hblmem
    have hsumT : sumIdxFrom tp idx (n + 1) = topLen + sumIdxFrom tp (idx + 1) n := rfl
    have hsumB : sumIdxFrom bp idx (n + 1) = botLen + sumIdxFrom bp (idx + 1) n := rfl
    have hsnnT := sumIdxFrom_nonneg tp htp0 n (idx + 1)
    have hsnnB := sumIdxFrom_nonneg bp hbp0 n (idx + 1)
    by_cases hbad : (seen.contains key || topSlice == botSlice) = true
    · rw [if_pos hbad] at h
      injection h with h1 h2
      exact absurd h1 (by simp)
    · rw [if_neg hbad] at h
      rw [makeId_eq] at h
      simp only [] at h
      cases hrec : tileLoop target tp bp (idx + 1) n (topOff + topLen) (botOff + botLen)
          (key :: seen) (nextK s).2 with
      | mk restO s2 =>
        rw [hrec] at h
        cases restO with
        | none =>
          simp only [] at h
          injection h with h1 h2
          exact absurd h1 (by simp)
        | some rest =>
          simp only [] at h
          injection h with h1 h2
          have htiles : tiles = ⟨makeIdStr idx (jsFloorMul (nextK s).1 1000000),
              topSlice, botSlice⟩ :: rest := by
            injection h1 with h1
            exact h1.symm
          subst htiles
          rcases List.mem_cons.mp ht with he | hm
          · subst he
            have hlt : ((topSlice.length : Int)) = topLen := by
              rw [hts]
              exact jsSliceI_length target topOff topLen hto (by omega) (by omega)
            have hlb : ((botSlice.length : Int)) = botLen := by
              rw [hbs]
              exact jsSliceI_length target botOff botLen hbo (by omega) (by omega)
            show mn ≤ (topSlice.length : Int) ∧ (topSlice.length : Int) ≤ mx ∧
                 mn ≤ (botSlice.length : Int) ∧ (botSlice.length : Int) ≤ mx
            rw [hlt, hlb]
            exact ⟨htlB.1, htlB.2.1, hblB.1, hblB.2.1⟩
          · exact ih (idx + 1) (topOff + topLen) (botOff + botLen) (key :: seen)
              (nextK s).2 rest s2 hrec (by omega) (by omega) (by omega) (by omega)
              (by omega) (by omega) t hm

/-! ### Shuffle is a permutation -/

theorem getD_cons_set_perm (d : Tile) :
    ∀ (xs : List Tile) (k : Nat) (x : Tile), k < xs.length →
      List.Perm ((xs.getD k d) :: xs.set k x) (x :: xs) := by
  intro xs
  induction xs with
  | nil => intro k x hk; simp at hk
  | cons y ys ih =>
    intro k x hk
    cases k with
    | zero =>
      show List.Perm (y :: x :: ys) (x :: y :: ys)
      exact List.Perm.swap x y ys
    | succ k =>
      show List.Perm (ys.getD k d :: y :: ys.set k x) (x :: y :: ys)
      have h1 : List.Perm (ys.getD k d :: y :: ys.set k x) (y :: ys.getD k d :: ys.set k x) :=
        List.Perm.swap y (ys.getD k d) (ys.set k x)
      have h2 : List.Perm (y :: ys.getD k d :: ys.set k x) (y :: x :: ys) :=
        List.Perm.cons y (ih k x (by simpa using hk))
      have h3 : List.Perm (y :: x :: ys) (x :: y :: ys) := List.Perm.swap x y ys
      exact (h1.trans h2).trans h3

theorem jsSwap_perm : ∀ (l : List Tile) (i j : Nat), i < l.length → j < l.length →
    List.Perm (jsSwap l i j) l := by
  intro l
  induction l with
  | nil => intro i j hi _; simp at hi
  | cons y ys ih =>
    intro i j hi hj
    cases i with
    | zero =>
      cases j with
      | zero =>
        show List.Perm (((y :: ys).set 0 ((y :: ys).getD 0 default)).set 0
          ((y :: ys).getD 0 default)) (y :: ys)
        simp [List.set_cons_zero]
      | succ j =>
        show List.Perm (((y :: ys).set 0 (ys.getD j default)).set (j + 1) y) (y :: ys)
        rw [List.set_cons_zero, List.set_cons_succ]
        exact getD_cons_set_perm default ys j y (by simpa using hj)
    | succ i =>
      cases j with
      | zero =>
        show List.Perm (((y :: ys).set (i + 1) y).set 0 (ys.getD i default)) (y :: ys)
        rw [List.set_cons_succ, List.set_cons_zero]
        exact getD_cons_set_perm default ys i y (by simpa using hi)
      | succ j =>
        show List.Perm (((y :: ys).set (i + 1) (ys.getD j default)).set (j + 1)
          (ys.getD i default)) (y :: ys)
        rw [List.set_cons_succ, List.set_cons_succ]
        exact List.Perm.cons y (ih i j (by simpa using hi) (by simpa using hj))

theorem jsSwap_length (l : List Tile) (i j : Nat) : (jsSwap l i j).length = l.length := by
  simp [jsSwap]

theorem shuffleGo_perm : ∀ (m s : Nat) (l : List Tile), m < l.length →
    List.Perm (shuffleGo m s l).1 l := by
  intro m
  induction m with
  | zero => intro s l _; exact List.Perm.refl l
  | succ i ih =>
    intro s l h
    rw [show shuffleGo (i + 1) s l = shuffleGo i (nextK s).2
      (jsSwap l (i + 1) (jsFloorMul (nextK s).1 (i + 2))) from rfl]
    set j := jsFloorMul (nextK s).1 (i + 2) with hjdef
    have hjlt : j < l.length := by
      have := jsFloorMul_lt (nextK s).1 (i + 2) (nextK_lt s) (by omega)
      omega
    have hswap := jsSwap_perm l (i + 1) j h hjlt
    have hlen := jsSwap_length l (i + 1) j
    exact (ih (nextK s).2 (jsSwap l (i + 1) j) (by omega)).trans hswap

theorem shuffle_perm (s : Nat) (l : List Tile) : List.Perm (shuffle s l).1 l := by
  unfold shuffle
  cases hl : l.length with
  | zero =>
    simp only []
    exact List.Perm.refl l
  | succ n =>
    simp only []
    exact shuffleGo_perm n s l (by omega)

/-! ### From builder success to structured facts -/

theorem randomPartition_some (fuel s : Nat) (total count minLen maxLen : Int)
    (hmn : 1 ≤ minLen) (lens : List Int) (s' : Nat)
    (h : randomPartition fuel s total count minLen maxLen = some (some lens, s')) :
    (lens.length : Int) = count ∧ lens.sum = total ∧
    ∀ x ∈ lens, minLen ≤ x ∧ x ≤ maxLen ∧ 0 < x := by
  unfold randomPartition at h
  by_cases hinf : total < count * minLen ∨ total > count * maxLen
  · rw [if_pos hinf] at h
    injection h with h'
    injection h' with h1 h2
    exact absurd h1 (by simp)
  · rw [if_neg hinf] at h
    exact partitionAttempts_spec fuel total count minLen maxLen hinf hmn 100 s lens s' h

/-- The facts about a partition pair that the tile loop's correctness
rests on, true both for pairs found by `randomPartition` and for the
hand-built fallback pair. -/
def GoodParts (count minLen maxLen : Int) (tp bp : List Int) (T : Int) : Prop :=
  tp.length = bp.length ∧
  count.toNat ≤ tp.length ∧
  tp.sum = T ∧ bp.sum = T ∧
  (∀ x ∈ tp, minLen ≤ x ∧ x ≤ maxLen ∧ 0 < x) ∧
  (∀ x ∈ bp, minLen ≤ x ∧ x ≤ maxLen ∧ 0 < x) ∧
  (2 ≤ count → (tp.length : Int) = count)

theorem jsSetExt_length (l : List Int) (i : Nat) (v : Int) :
    (jsSetExt l i v).length = if i < l.length then l.length else l.length + 1 := by
  unfold jsSetExt
  by_cases h : i < l.length
  · rw [if_pos h, if_pos h]
    simp
  · rw [if_neg h, if_neg h]
    simp

theorem jsSetExt_mem (l : List Int) (i : Nat) (v : Int) :
    ∀ x ∈ jsSetExt l i v, x ∈ l ∨ x = v := by
  intro x hx
  unfold jsSetExt at hx
  by_cases h : i < l.length
  · rw [if_pos h] at hx
    exact List.mem_or_eq_of_mem_set hx
  · rw [if_neg h] at hx
    rcases List.mem_append.mp hx with hm | hm
    · exact Or.inl hm
    · simp only [List.mem_singleton] at hm
      exact Or.inr hm

theorem fallbackParts_length (count minLen maxLen : Int) :
    (fallbackParts count minLen maxLen).length = max count.toNat 2 := by
  unfold fallbackParts
  rw [jsSetExt_length, jsSetExt_length]
  simp only [List.length_replicate]
  by_cases h0 : 0 < count.toNat
  · rw [if_pos h0]
    by_cases h1 : 1 < count.toNat
    · rw [if_pos (by simpa using h1)]
      omega
    · rw [if_neg (by simpa using h1)]
      omega
  · rw [if_neg h0]
    have : count.toNat = 0 := by omega
    rw [this]
    norm_num

theorem fallbackParts_mem (count minLen maxLen : Int) :
    ∀ x ∈ fallbackParts count minLen maxLen, x = minLen ∨ x = min maxLen (minLen + 1) := by
  intro x hx
  unfold fallbackParts at hx
  rcases jsSetExt_mem _ _ _ x hx with hm | he
  · rcases jsSetExt_mem _ _ _ x hm with hm2 | he2
    · exact Or.inl (List.eq_of_mem_replicate hm2)
    · exact Or.inl he2
  · exact Or.inr he

theorem fallback_good (count minLen maxLen : Int) (hmn : 1 ≤ minLen) (hmx : minLen ≤ maxLen) :
    GoodParts count minLen maxLen (fallbackParts count minLen maxLen)
      (fallbackParts count minLen maxLen).reverse ((fallbackParts count minLen maxLen).sum) := by
  have hmem : ∀ x ∈ fallbackParts count minLen maxLen,
      minLen ≤ x ∧ x ≤ maxLen ∧ 0 < x := by
    intro x hx
    rcases fallbackParts_mem count minLen maxLen x hx with he | he <;> subst he
    · exact ⟨le_refl _, hmx, by omega⟩
    · constructor
      · exact le_min hmx (by omega)
      · exact ⟨min_le_left _ _, by have := le_min hmx (show minLen ≤ minLen + 1 by omega); omega⟩
  have hlen := fallbackParts_length count minLen maxLen
  refine ⟨by simp, by omega, rfl, ?_, hmem, ?_, ?_⟩
  · show (fallbackParts count minLen maxLen).reverse.sum = (fallbackParts count minLen maxLen).sum
    exact List.sum_reverse _
  · intro x hx
    exact hmem x (List.mem_reverse.mp hx)
  · intro h2
    have : count.toNat = (fallbackParts count minLen maxLen).length := by omega
    omega

theorem pairTries_inv (fuel : Nat) (count minLen maxLen minTotal maxTotal : Int)
    (ru : Bool) (ma : Int) (hmn : 1 ≤ minLen) :
    ∀ (tries s : Nat) (tp bp : List Int) (T : Int) (s' : Nat),
      pairTries fuel count minLen maxLen minTotal maxTotal ru ma s tries
        = some (some (tp, bp, T), s') →
      GoodParts count minLen maxLen tp bp T := by
  intro tries
  induction tries with
  | zero =>
    intro s tp bp T s' h
    unfold pairTries at h
    injection h with h'
    have : (none : Option (List Int × List Int × Int)) = some (tp, bp, T) := congrArg Prod.fst h'
    exact absurd this (by simp)
  | succ t ih =>
    intro s tp bp T s' h
    rw [show pairTries fuel count minLen maxLen minTotal maxTotal ru ma s (t + 1) =
      (let d := maxTotal - minTotal
       let bound := max 1 (min d (jsRound06 d))
       let (k1, s1) := nextK s
       let dtb := minTotal + (jsFloorMul k1 bound.toNat : Int)
       let (k2, s2) := nextK s1
       let totalLength :=
         min maxTotal (max minTotal (dtb + (jsFloorMul k2 (maxLen - minLen + 1).toNat : Int)))
       match randomPartition fuel s2 totalLength count minLen maxLen with
       | none => none
       | some (tpO, s3) =>
         match randomPartition fuel s3 totalLength count minLen maxLen with
         | none => none
         | some (bpO, s4) =>
           match tpO, bpO with
           | some tpX, some bpX =>
             let hasDiff := (tpX.zip bpX).any fun p => p.1 ≠ p.2
             let forcedMatch := ru && partitionsForceEqualTile tpX bpX ma
             if hasDiff && !forcedMatch then some (some (tpX, bpX, totalLength), s4)
             else pairTries fuel count minLen maxLen minTotal maxTotal ru ma s4 t
           | _, _ => pairTries fuel count minLen maxLen minTotal maxTotal ru ma s4 t) from rfl] at h
    simp only [] at h
    rcases hk1 : nextK s with ⟨k1, s1⟩
    rw [hk1] at h
    simp only [] at h
    rcases hk2 : nextK s1 with ⟨k2, s2⟩
    rw [hk2] at h
    simp only [] at h
    set TL := min maxTotal (max minTotal
      ((minTotal + (jsFloorMul k1 (max 1 (min (maxTotal - minTotal)
        (jsRound06 (maxTotal - minTotal)))).toNat : Int)) +
       (jsFloorMul k2 (maxLen - minLen + 1).toNat : Int))) with hTL
    cases hA : randomPartition fuel s2 TL count minLen maxLen with
    | none =>
      rw [hA] at h
      exact absurd h (by simp)
    | some pA =>
      rcases pA with ⟨tpO, s3⟩
      rw [hA] at h
      simp only [] at h
      cases hB : randomPartition fuel s3 TL count minLen maxLen with
      | none =>
        rw [hB] at h
        exact absurd h (by simp)
      | some pB =>
        rcases pB with ⟨bpO, s4⟩
        rw [hB] at h
        simp only [] at h
        cases tpO with
        | none =>
          cases bpO with
          | none => exact ih s4 tp bp T s' h
          | some bpX => exact ih s4 tp bp T s' h
        | some tpX =>
          cases bpO with
          | none => exact ih s4 tp bp T s' h
          | some bpX =>
            simp only [] at h
            by_cases hcond : (((tpX.zip bpX).any fun p => decide (p.1 ≠ p.2)) &&
                !(ru && partitionsForceEqualTile tpX bpX ma)) = true
            · rw [if_pos hcond] at h
              injection h with h'
              injection h' with h1 h2
              have h3 : (tpX, bpX, TL) = (tp, bp, T) := by injection h1
              have htp : tpX = tp := congrArg Prod.fst h3
              have hbp : bpX = bp := congrArg Prod.fst (congrArg Prod.snd h3)
              have hT : TL = T := congrArg Prod.snd (congrArg Prod.snd h3)
              obtain ⟨hlA, hsA, hmA⟩ :=
                randomPartition_some fuel s2 TL count minLen maxLen hmn tpX s3 hA
              obtain ⟨hlB, hsB, hmB⟩ :=
                randomPartition_some fuel s3 TL count minLen maxLen hmn bpX s4 hB
              rw [← htp, ← hbp, ← hT]
              refine ⟨by omega, by omega, hsA, hsB, hmA, hmB, fun _ => hlA⟩
            · rw [if_neg hcond] at h
              exact ih s4 tp bp T s' h

theorem targetTries_inv (alpha : List Char) (tp bp : List Int) (T : Int) (count : Nat) :
    ∀ (tries s : Nat) (tiles : List Tile) (s' : Nat),
      targetTries alpha tp bp T count s tries = (some tiles, s') →
      ∃ sA, tileLoop (randomString alpha sA T.toNat).1 tp bp 0 count 0 0 []
          (randomString alpha sA T.toNat).2 = (some tiles, s') := by
  intro tries
  induction tries with
  | zero =>
    intro s tiles s' h
    unfold targetTries at h
    injection h with h1 h2
    exact absurd h1 (by simp)
  | succ t ih =>
    intro s tiles s' h
    rw [show targetTries alpha tp bp T count s (t + 1) =
      (let (target, s1) := randomString alpha s T.toNat
       match tileLoop target tp bp 0 count 0 0 [] s1 with
       | (some tiles, s2) => (some tiles, s2)
       | (none, s2) => targetTries alpha tp bp T count s2 t) from rfl] at h
    rcases hrs : randomString alpha s T.toNat with ⟨target, s1⟩
    rw [hrs] at h
    simp only [] at h
    cases hloop : tileLoop target tp bp 0 count 0 0 [] s1 with
    | mk tilesO s2 =>
      rw [hloop] at h
      cases tilesO with
      | none =>
        simp only [] at h
        exact ih s2 tiles s' h
      | some tilesX =>
        simp only [] at h
        injection h with h1 h2
        have htx : tilesX = tiles := by injection h1
        refine ⟨s, ?_⟩
        rw [hrs]
        simp only []
        rw [hloop, htx, h2]

theorem buildAttempts_inv (fuel : Nat) (st : PuzzleSettings) (mn mx minT maxT : Int)
    (ru : Bool) (ma : Int) (hmn : 1 ≤ mn) (hmx : mn ≤ mx) :
    ∀ (attempts s : Nat) (tilesD : List Tile) (sol : List (List Char)) (sOut : Nat),
      buildAttempts fuel st mn mx minT maxT ru ma s attempts = some (some (tilesD, sol), sOut) →
      ∃ (tp bp : List Int) (T : Int) (sA sC : Nat) (tilesC : List Tile),
        GoodParts st.tileCount mn mx tp bp T ∧
        tileLoop (randomString st.alphabet sA T.toNat).1 tp bp 0 st.tileCount.toNat 0 0 []
          (randomString st.alphabet sA T.toNat).2 = (some tilesC, sC) ∧
        sol = tilesC.map Tile.id ∧
        tilesD = (shuffle sC tilesC).1 := by
  intro attempts
  induction attempts with
  | zero =>
    intro s tilesD sol sOut h
    unfold buildAttempts at h
    injection h with h'
    have : (none : Option (List Tile × List (List Char))) = some (tilesD, sol) :=
      congrArg Prod.fst h'
    exact absurd this (by simp)
  | succ a ih =>
    intro s tilesD sol sOut h
    rw [show buildAttempts fuel st mn mx minT maxT ru ma s (a + 1) =
      (match pairTries fuel st.tileCount mn mx minT maxT ru ma s 50 with
       | none => none
       | some (pairO, s1) =>
         let parts : List Int × List Int × Int :=
           match pairO with
           | some x => x
           | none =>
             let base := fallbackParts st.tileCount mn mx
             (base, base.reverse, base.sum)
         let tp := parts.1
         let bp := parts.2.1
         let totalLength := parts.2.2
         if ru && partitionsForceEqualTile tp bp ma then
           buildAttempts fuel st mn mx minT maxT ru ma s1 a
         else
           match targetTries st.alphabet tp bp totalLength st.tileCount.toNat s1 60 with
           | (some tiles, s2) =>
             let sol := tiles.map (·.id)
             let (shuffled, s3) := shuffle s2 tiles
             some (some (shuffled, sol), s3)
           | (none, s2) =>
             buildAttempts fuel st mn mx minT maxT ru ma s2 a) from rfl] at h
    cases hPT : pairTries fuel st.tileCount mn mx minT maxT ru ma s 50 with
    | none =>
      rw [hPT] at h
      exact absurd h (by simp)
    | some pr =>
      rcases pr with ⟨pairO, s1⟩
      rw [hPT] at h
      cases pairO with
      | some x =>
        rcases x with ⟨tpX, bpX, TX⟩
        simp only [] at h
        have hGP : GoodParts st.tileCount mn mx tpX bpX TX :=
          pairTries_inv fuel st.tileCount mn mx minT maxT ru ma hmn 50 s tpX bpX TX s1 hPT
        by_cases hforce : (ru && partitionsForceEqualTile tpX bpX ma) = true
        · rw [if_pos hforce] at h
          exact ih s1 tilesD sol sOut h
        · rw [if_neg hforce] at h
          cases hTT : targetTries st.alphabet tpX bpX TX st.tileCount.toNat s1 60 with
          | mk tilesO s2 =>
            rw [hTT] at h
            cases tilesO with
            | none =>
              simp only [] at h
              exact ih s2 tilesD sol sOut h
            | some tilesX =>
              simp only [] at h
              rcases hsh : shuffle s2 tilesX with ⟨shuffled, s3⟩
              rw [hsh] at h
              simp only [] at h
              injection h with h'
              injection h' with h1 h2
              have hpair : (shuffled, tilesX.map (·.id)) = (tilesD, sol) := by injection h1
              have hD : shuffled = tilesD := congrArg Prod.fst hpair
              have hS : tilesX.map (·.id) = sol := congrArg Prod.snd hpair
              obtain ⟨sA, hloop⟩ :=
                targetTries_inv st.alphabet tpX bpX TX st.tileCount.toNat 60 s1 tilesX s2 hTT
              refine ⟨tpX, bpX, TX, sA, s2, tilesX, hGP, hloop, hS.symm, ?_⟩
              rw [← hD, hsh]
      | none =>
        simp only [] at h
        set tpF := fallbackParts st.tileCount mn mx with htpF
        set bpF := tpF.reverse with hbpF
        set TF := tpF.sum with hTF
        have hGP : GoodParts st.tileCount mn mx tpF bpF TF :=
          fallback_good st.tileCount mn mx hmn hmx
        by_cases hforce : (ru && partitionsForceEqualTile tpF bpF ma) = true
        · rw [if_pos hforce] at h
          exact ih s1 tilesD sol sOut h
        · rw [if_neg hforce] at h
          cases hTT : targetTries st.alphabet tpF bpF TF st.tileCount.toNat s1 60 with
          | mk tilesO s2 =>
            rw [hTT] at h
            cases tilesO with
            | none =>
              simp only [] at h
              exact ih s2 tilesD sol sOut h
            | some tilesX =>
              simp only [] at h
              rcases hsh : shuffle s2 tilesX with ⟨shuffled, s3⟩
              rw [hsh] at h
              simp only [] at h
              injection h with h'
              injection h' with h1 h2
              have hpair : (shuffled, tilesX.map (·.id)) = (tilesD, sol) := by injection h1
              have hD : shuffled = tilesD := congrArg Prod.fst hpair
              have hS : tilesX.map (·.id) = sol := congrArg Prod.snd hpair
              obtain ⟨sA, hloop⟩ :=
                targetTries_inv st.alphabet tpF bpF TF st.tileCount.toNat 60 s1 tilesX s2 hTT
              refine ⟨tpF, bpF, TF, sA, s2, tilesX, hGP, hloop, hS.symm, ?_⟩
              rw [← hD, hsh]

theorem buildSolvableTiles_inv (fuel : Nat) (st : PuzzleSettings) (s : Nat)
    (tilesD : List Tile) (sol : List (List Char)) (sOut : Nat)
    (h : buildSolvableTiles fuel st s = some (some (tilesD, sol), sOut)) :
    ∃ (tp bp : List Int) (T : Int) (sA sC : Nat) (tilesC : List Tile),
      GoodParts st.tileCount (max 1 st.minLength) (max (max 1 st.minLength) st.maxLength) tp bp T ∧
      tileLoop (randomString st.alphabet sA T.toNat).1 tp bp 0 st.tileCount.toNat 0 0 []
        (randomString st.alphabet sA T.toNat).2 = (some tilesC, sC) ∧
      sol = tilesC.map Tile.id ∧
      tilesD = (shuffle sC tilesC).1 := by
  unfold buildSolvableTiles at h
  simp only [] at h
  exact buildAttempts_inv fuel st (max 1 st.minLength) (max (max 1 st.minLength) st.maxLength)
    (st.tileCount * max 1 st.minLength) (st.tileCount * max (max 1 st.minLength) st.maxLength)
    st.forceUnique
    (if st.forceUnique then (if 6 ≤ st.tileCount then 1 else 0) else st.tileCount)
    (le_max_left _ _) (le_max_left _ _) 100 s tilesD sol sOut h

theorem generate_inv (fuel : Nat) (r : List Char) (p : PresetName) (seed : Option (List Char))
    (ovr : GenOverrides) (inst : PuzzleInstance)
    (h : generatePuzzle fuel r p seed ovr = some (some inst)) :
    inst.settings = (resolveSettings p ovr (hashSeed (deriveSeed r seed))).1 ∧
    ((inst.solvable = false ∧ inst.solution = none ∧
      ∃ s2, inst.tiles = (unsolvTiles inst.settings 0 inst.settings.tileCount.toNat [] s2).1) ∨
     (inst.solvable = true ∧
      ∃ (s2 sOut : Nat) (tilesC : List Tile) (sol : List (List Char)),
        buildSolvableTiles fuel inst.settings s2 = some (some (tilesC, sol), sOut) ∧
        inst.tiles = tilesC ∧ inst.solution = some sol)) := by
  unfold generatePuzzle at h
  simp only [] at h
  rcases hrs : resolveSettings p ovr (hashSeed (deriveSeed r seed)) with ⟨settings, s1⟩
  rw [hrs] at h
  simp only [] at h
  by_cases hau : settings.allowUnsolvable = true
  · rw [if_pos hau] at h
    rcases hnk : nextK s1 with ⟨k, s1'⟩
    rw [hnk] at h
    simp only [] at h
    by_cases hg : gt06 k = true
    · rw [if_pos hg] at h
      rcases hut : unsolvTiles settings 0 settings.tileCount.toNat [] s1' with ⟨tiles, sX⟩
      rw [hut] at h
      simp only [] at h
      injection h with h'
      injection h' with h''
      subst h''
      refine ⟨rfl, Or.inl ⟨rfl, rfl, s1', ?_⟩⟩
      show tiles = (unsolvTiles settings 0 settings.tileCount.toNat [] s1').1
      rw [hut]
    · rw [if_neg hg] at h
      cases hbs : buildSolvableTiles fuel settings s1' with
      | none =>
        rw [hbs] at h
        exact absurd h (by simp)
      | some res =>
        rcases res with ⟨resO, sOut⟩
        rw [hbs] at h
        cases resO with
        | none =>
          simp only [] at h
          injection h with h'
          exact absurd h' (by simp)
        | some pr =>
          rcases pr with ⟨tilesC, sol⟩
          simp only [] at h
          injection h with h'
          injection h' with h''
          subst h''
          exact ⟨rfl, Or.inr ⟨rfl, s1', sOut, tilesC, sol, hbs, rfl, rfl⟩⟩
  · rw [if_neg hau] at h
    simp only [] at h
    cases hbs : buildSolvableTiles fuel settings s1 with
    | none =>
      rw [hbs] at h
      exact absurd h (by simp)
    | some res =>
      rcases res with ⟨resO, sOut⟩
      rw [hbs] at h
      cases resO with
      | none =>
        simp only [] at h
        injection h with h'
        exact absurd h' (by simp)
      | some pr =>
        rcases pr with ⟨tilesC, sol⟩
        simp only [] at h
        injection h with h'
        injection h' with h''
        subst h''
        exact ⟨rfl, Or.inr ⟨rfl, s1, sOut, tilesC, sol, hbs, rfl, rfl⟩⟩

theorem randomString_length (alpha : List Char) (hne : alpha ≠ []) :
    ∀ (n s : Nat), ((randomString alpha s n).1).length = n := by
  intro n
  induction n with
  | zero => intro s; rfl
  | succ n ih =>
    intro s
    rw [show randomString alpha s (n + 1) =
      (let (k, s1) := nextK s
       let piece :=
         if alpha.length = 0 then "undefined".toList
         else [alpha.getD (jsFloorMul k alpha.length % alpha.length) 'a']
       let (rest, s2) := randomString alpha s1 n
       (piece ++ rest, s2)) from rfl]
    rcases hnk : nextK s with ⟨k, s1⟩
    simp only []
    rcases hrs : randomString alpha s1 n with ⟨rest, s2⟩
    simp only []
    have hlen : alpha.length ≠ 0 := fun hc => hne (List.eq_nil_of_length_eq_zero hc)
    rw [if_neg hlen]
    have hih := ih s1
    rw [hrs] at hih
    simp only [] at hih
    simp [hih]

theorem ids_nodup_of_parse (tiles : List Tile) (idx n : Nat)
    (h : tiles.map (fun t => parseIdx t.id) = List.range' idx n) :
    (tiles.map Tile.id).Nodup := by
  apply List.Nodup.of_map parseIdx
  rw [List.map_map]
  have he : (parseIdx ∘ Tile.id) = fun t => parseIdx t.id := rfl
  rw [he, h]
  exact List.nodup_range' idx n

theorem lookupLast_nodup (ts : List Tile) (hnd : (ts.map Tile.id).Nodup)
    (t : Tile) (ht : t ∈ ts) : lookupLast ts t.id = some t := by
  have hsome := lookupLast_isSome t.id ts ⟨t, ht, rfl⟩
  obtain ⟨u, hu⟩ := Option.isSome_iff_exists.mp hsome
  obtain ⟨hmem, hid⟩ := lookupLast_mem t.id ts u hu
  have hut : u = t := List.inj_on_of_nodup_map hnd hmem ht (by rw [hid])
  rw [hu, hut]

/-- C1 (amended).  For every instance `generatePuzzle` returns with
`solvable = true` and a resolved tile count of at least 2, the recorded
construction-order solution validates: the tiles referenced by
`findSolution`'s ordering concatenate to the same top and bottom string.
(For a pass-through `tileCount` override below 2 the broken fallback
partition can produce a solvable-flagged instance that fails its own
recorded solution — see the counterexample.) -/
theorem C1_solved_instance_sound (fuel : Nat) (r : List Char) (preset : PresetName)
    (seed : Option (List Char)) (ovr : GenOverrides) (inst : PuzzleInstance)
    (hgen : generatePuzzle fuel r preset seed ovr = some (some inst))
    (hsolv : inst.solvable = true) (hc2 : 2 ≤ inst.settings.tileCount) :
    ∃ sol, findSolution inst = some sol ∧ validateSolution inst sol = true := by
  obtain ⟨hset, hbr⟩ := generate_inv fuel r preset seed ovr inst hgen
  rcases hbr with ⟨hf, -, -⟩ | ⟨-, s2, sOut, tilesD, sol, hbs, htiles, hsol⟩
  · rw [hsolv] at hf
    exact absurd hf (by simp)
  · refine ⟨sol, by simp [findSolution, hsolv, hsol], ?_⟩
    obtain ⟨tp, bp, T, sA, sC, tilesK, hGP, hloop, hsolK, hdisp⟩ :=
      buildSolvableTiles_inv fuel inst.settings s2 tilesD sol sOut hbs
    obtain ⟨hlenEq, hcntLe, hsumTp, hsumBp, hmemTp, hmemBp, hlen2⟩ := hGP
    have htp0 : ∀ x ∈ tp, 0 ≤ x := fun x hx => le_of_lt (hmemTp x hx).2.2
    have hbp0 : ∀ x ∈ bp, 0 ≤ x := fun x hx => le_of_lt (hmemBp x hx).2.2
    set cnt := inst.settings.tileCount with hcnt
    set target := (randomString inst.settings.alphabet sA T.toNat).1 with htgt
    obtain ⟨hlenK, hparse, hform, htopJ, hbotJ, hne⟩ :=
      tileLoop_spec target tp bp htp0 hbp0 cnt.toNat 0 0 0 [] _ tilesK sC hloop
        (le_refl 0) (le_refl 0)
    have htplen : tp.length = cnt.toNat := by
      have := hlen2 hc2
      omega
    have hbplen : bp.length = cnt.toNat := by omega
    have hsumTp2 : sumIdxFrom tp 0 cnt.toNat = T := by
      rw [← htplen, sumIdxFrom_full, hsumTp]
    have hsumBp2 : sumIdxFrom bp 0 cnt.toNat = T := by
      rw [← hbplen, sumIdxFrom_full, hsumBp]
    have hJJ : (tilesK.map Tile.top).join = (tilesK.map Tile.bottom).join := by
      rw [htopJ, hbotJ, hsumTp2, hsumBp2]
    have hndK : (tilesK.map Tile.id).Nodup := ids_nodup_of_parse tilesK 0 cnt.toNat hparse
    have hperm : List.Perm inst.tiles tilesK := by
      rw [htiles, hdisp]
      exact shuffle_perm sC tilesK
    have hndD : (inst.tiles.map Tile.id).Nodup := by
      have hp2 : List.Perm (inst.tiles.map Tile.id) (tilesK.map Tile.id) := hperm.map Tile.id
      exact hp2.nodup_iff.mpr hndK
    have href : ∀ u ∈ tilesK, refTile inst.tiles u.id = u := by
      intro u hu
      unfold refTile
      rw [lookupLast_nodup inst.tiles hndD u (hperm.symm.subset hu)]
      rfl
    have hsolNe : sol ≠ [] := by
      rw [hsolK]
      intro hcon
      have := congrArg List.length hcon
      simp only [List.length_map, List.length_nil] at this
      omega
    unfold validateSolution
    rw [if_neg (by simpa [List.isEmpty_iff] using hsolNe)]
    rw [validateGo_iff inst.tiles sol [] []]
    refine ⟨?_, ?_⟩
    · intro oid hoid
      rw [hsolK] at hoid
      obtain ⟨u, hu, huid⟩ := List.mem_map.mp hoid
      exact ⟨u, hperm.symm.subset hu, huid⟩
    · simp only [List.nil_append]
      have hmap : ∀ (f : Tile → List Char), (∀ u ∈ tilesK, (refTile inst.tiles u.id) = u) →
          sol.map (fun oid => (refTile inst.tiles oid).top) = tilesK.map Tile.top ∧
          sol.map (fun oid => (refTile inst.tiles oid).bottom) = tilesK.map Tile.bottom := by
        intro _ hrefX
        constructor
        · rw [hsolK, List.map_map]
          exact List.map_congr_left (fun u hu => by
            simp only [Function.comp_apply]
            rw [hrefX u hu])
        · rw [hsolK, List.map_map]
          exact List.map_congr_left (fun u hu => by
            simp only [Function.comp_apply]
            rw [hrefX u hu])
      obtain ⟨hm1, hm2⟩ := hmap Tile.top href
      rw [hm1, hm2]
      exact hJJ

/-- The concrete instance produced for preset `easy`, seed `"a"`, and a
pass-through `tileCount := 1` override: the broken fallback partition
(`base[1]` extends the one-slot array) slices one tile with a 2-char top
and a 3-char bottom, yet flags the instance solvable. -/
def instOneTile : PuzzleInstance :=
  { seed := "a".toList,
    preset := PresetName.easy,
    settings :=
      { tileCount := 1, tileCountRange := some (1, 1), alphabet := "ab".toList,
        minLength := 2, maxLength := 3, allowUnsolvable := false,
        forceUnique := true, theme := some AlphabetTheme.preset },
    tiles := [{ id := "tile-0-9x61".toList, top := "aa".toList, bottom := "aab".toList }],
    solvable := true,
    solution := some ["tile-0-9x61".toList] }

/-- The concrete instance produced for preset `easy` and seed
`"abc123"` (the spec's own example scenario). -/
def instEasy : PuzzleInstance :=
  { seed := "abc123".toList,
    preset := PresetName.easy,
    settings :=
      { tileCount := 3, tileCountRange := some (3, 3), alphabet := "ab".toList,
        minLength := 2, maxLength := 3, allowUnsolvable := false,
        forceUnique := true, theme := some AlphabetTheme.preset },
    tiles :=
      [{ id := "tile-1-ihav".toList, top := "bba".toList, bottom := "abb".toList },
       { id := "tile-2-3ntt".toList, top := "bb".toList, bottom := "abb".toList },
       { id := "tile-0-6oto".toList, top := "bba".toList, bottom := "bb".toList }],
    solvable := true,
    solution := some ["tile-0-6oto".toList, "tile-1-ihav".toList, "tile-2-3ntt".toList] }

/-- C1 counterexample: with the pass-through override `tileCount = 1`,
`generatePuzzle` returns a solvable-flagged instance whose recorded
solution fails validation (`validateSolution(instance, findSolution(instance)) = false`). -/
theorem C1_counterexample_one_tile :
    generatePuzzle 0 "rnd".toList PresetName.easy (some "a".toList) { tileCount := some 1 }
      = some (some instOneTile) ∧
    instOneTile.solvable = true ∧
    findSolution instOneTile = some ["tile-0-9x61".toList] ∧
    validateSolution instOneTile ["tile-0-9x61".toList] = false := by
  refine ⟨by decide, rfl, rfl, by decide⟩

/-- C1 witness: for the spec's example seed `"abc123"` on preset `easy`
the amended theorem yields a validating recorded solution. -/
theorem C1_solved_instance_sound_witness :
    generatePuzzle 1000 "rnd".toList PresetName.easy (some "abc123".toList) {}
      = some (some instEasy) ∧
    (∃ sol, findSolution instEasy = some sol ∧ validateSolution instEasy sol = true) :=
  ⟨by decide,
    C1_solved_instance_sound 1000 "rnd".toList PresetName.easy (some "abc123".toList) {}
      instEasy (by decide) (by decide) (by decide)⟩

/-- C9.  For every instance `generatePuzzle` returns, `findSolution`
yields nothing exactly when the solvable flag is false, and for a
solvable instance it returns precisely the recorded construction-order
solution (value-for-value; the JS layer returns it as a fresh array
copy, which a value semantics renders as plain equality). -/
theorem C9_findSolution (fuel : Nat) (r : List Char) (preset : PresetName)
    (seed : Option (List Char)) (ovr : GenOverrides) (inst : PuzzleInstance)
    (hgen : generatePuzzle fuel r preset seed ovr = some (some inst)) :
    (findSolution inst = none ↔ inst.solvable = false) ∧
    (inst.solvable = true → findSolution inst = inst.solution) := by
  obtain ⟨-, hbr⟩ := generate_inv fuel r preset seed ovr inst hgen
  rcases hbr with ⟨hf, hsolN, -⟩ | ⟨ht, -, -, -, sol, -, -, hsol⟩
  · constructor
    · simp [findSolution, hf]
    · intro hcon
      rw [hcon] at hf
      exact absurd hf (by simp)
  · constructor
    · simp [findSolution, ht, hsol]
    · intro _
      simp [findSolution, ht, hsol]

/-- C9 witness at the concrete easy-preset instance. -/
theorem C9_findSolution_witness :
    (findSolution instEasy = none ↔ instEasy.solvable = false) ∧
    (instEasy.solvable = true → findSolution instEasy = instEasy.solution) :=
  C9_findSolution 1000 "rnd".toList PresetName.easy (some "abc123".toList) {}
    instEasy (by decide)

/-! ### The unsolvable-instance builder -/

theorem tweakString_length (s : Nat) (value alpha : List Char) :
    ((tweakString s value alpha).1).length = value.length := by
  cases value with
  | nil => rfl
  | cons c cs =>
    rw [show tweakString s (c :: cs) alpha =
      (let (k, s1) := nextK s
       let idx := jsFloorMul k (c :: cs).length
       let current := (c :: cs).getD idx 'a'
       let replacement := (alpha.find? (fun x => x ≠ current)).getD current
       ((c :: cs).take idx ++ replacement :: (c :: cs).drop (idx + 1), s1)) from rfl]
    rcases hk : nextK s with ⟨k, s1⟩
    simp only []
    have hidx : jsFloorMul k (c :: cs).length < (c :: cs).length := by
      refine jsFloorMul_lt _ _ ?_ (by simp)
      have := nextK_lt s
      rw [hk] at this
      exact this
    simp only [List.length_append, List.length_take, List.length_cons, List.length_drop]
    simp only [List.length_cons] at hidx
    omega

theorem tweakString_ne (s : Nat) (value alpha : List Char) (hval : value ≠ [])
    (halpha2 : ∃ a ∈ alpha, ∃ b ∈ alpha, a ≠ b) :
    (tweakString s value alpha).1 ≠ value := by
  cases value with
  | nil => exact absurd rfl hval
  | cons c0 cs =>
    rw [show tweakString s (c0 :: cs) alpha =
      (let (k, s1) := nextK s
       let idx := jsFloorMul k (c0 :: cs).length
       let current := (c0 :: cs).getD idx 'a'
       let replacement := (alpha.find? (fun x => x ≠ current)).getD current
       ((c0 :: cs).take idx ++ replacement :: (c0 :: cs).drop (idx + 1), s1)) from rfl]
    rcases hk : nextK s with ⟨k, s1⟩
    simp only []
    set v := c0 :: cs with hv
    set idx := jsFloorMul k v.length with hidxdef
    have hidx : idx < v.length := by
      refine jsFloorMul_lt _ _ ?_ (by simp [hv])
      have := nextK_lt s
      rw [hk] at this
      exact this
    set current := v.getD idx 'a' with hcur
    have hex : ∃ x ∈ alpha, (fun x => decide (x ≠ current)) x = true := by
      obtain ⟨a, ha, b, hb, hab⟩ := halpha2
      by_cases hac : a = current
      · exact ⟨b, hb, by simp only [← hac, decide_eq_true_eq]; exact hab.symm⟩
      · exact ⟨a, ha, by simp [hac]⟩
    cases hf : alpha.find? (fun x => decide (x ≠ current)) with
    | none =>
      obtain ⟨x, hx, hpx⟩ := hex
      exact absurd hpx (List.find?_eq_none.mp hf x hx)
    | some repl =>
      have hrepl : repl ≠ current := by
        have := List.find?_some hf
        simpa using this
      simp only [Option.getD_some]
      intro heq
      have hgd := congrArg (fun l => l.getD idx 'z') heq
      have hlhs : (v.take idx ++ repl :: v.drop (idx + 1)).getD idx 'z' = repl := by
        rw [List.getD_eq_getElem?_getD]
        have hlen : (v.take idx).length = idx := by
          simp only [List.length_take]
          omega
        have hget : (v.take idx ++ repl :: v.drop (idx + 1))[idx]? = some repl := by
          rw [List.getElem?_append_right (by omega)]
          rw [hlen]
          simp
        rw [hget]
        rfl
      have hrhs : v.getD idx 'z' = current := by
        rw [hcur]
        rw [List.getD_eq_getElem?_getD, List.getD_eq_getElem?_getD]
        rw [List.getElem?_eq_getElem hidx]
        rfl
      simp only [hlhs, hrhs] at hgd
      exact hrepl hgd
theorem unsolvLoop_body (st : PuzzleSettings) (seen : List (List Char)) :
    ∀ (fuel s : Nat), ∃ s0, unsolvLoop st seen fuel s = unsolvBody st s0 := by
  intro fuel
  induction fuel with
  | zero => intro s; exact ⟨s, rfl⟩
  | succ f ih =>
    intro s
    rw [show unsolvLoop st seen (f + 1) s =
      (let (top, bottom, key, s1) := unsolvBody st s
       if seen.contains key || top == bottom then unsolvLoop st seen f s1
       else (top, bottom, key, s1)) from rfl]
    rcases hb : unsolvBody st s with ⟨top, bottom, key, s1⟩
    simp only []
    by_cases hcond : (seen.contains key || top == bottom) = true
    · rw [if_pos hcond]
      exact ih s1
    · rw [if_neg hcond]
      exact ⟨s, hb.symm⟩

theorem unsolvBody_spec (st : PuzzleSettings) (hmn : 1 ≤ st.minLength)
    (hmx : st.minLength ≤ st.maxLength) (hne : st.alphabet ≠ []) (s : Nat) :
    st.minLength ≤ ((unsolvBody st s).1.length : Int) ∧
    ((unsolvBody st s).1.length : Int) ≤ st.maxLength ∧
    st.minLength ≤ ((unsolvBody st s).2.1.length : Int) ∧
    ((unsolvBody st s).2.1.length : Int) ≤ st.maxLength := by
  unfold unsolvBody
  simp only []
  set span := (max 1 (st.maxLength - st.minLength + 1)).toNat with hspan
  have hspan1 : 1 ≤ span := by
    rw [hspan]
    omega
  have hspanVal : (span : Int) = st.maxLength - st.minLength + 1 := by
    rw [hspan]
    omega
  rcases hk1 : nextK s with ⟨k1, s1⟩
  simp only []
  rcases hk2 : nextK s1 with ⟨k2, s2⟩
  simp only []
  set topLen := st.minLength + (jsFloorMul k1 span : Int) with htl
  set botLen := st.minLength + (jsFloorMul k2 span : Int) with hbl
  have hk1lt : k1 < m32 := by
    have := nextK_lt s
    rw [hk1] at this
    exact this
  have hk2lt : k2 < m32 := by
    have := nextK_lt s1
    rw [hk2] at this
    exact this
  have hf1 := jsFloorMul_le k1 span hk1lt hspan1
  have hf2 := jsFloorMul_le k2 span hk2lt hspan1
  have hcast1 : (jsFloorMul k1 span : Int) ≤ (span : Int) - 1 := by omega
  have hcast2 : (jsFloorMul k2 span : Int) ≤ (span : Int) - 1 := by omega
  have htlB : st.minLength ≤ topLen ∧ topLen ≤ st.maxLength := by
    rw [htl]
    omega
  have hblB : st.minLength ≤ botLen ∧ botLen ≤ st.maxLength := by
    rw [hbl]
    omega
  rcases hrs1 : randomString st.alphabet s2 topLen.toNat with ⟨top, s3⟩
  simp only []
  rcases hrs2 : randomString st.alphabet s3 botLen.toNat with ⟨bottom0, s4⟩
  simp only []
  have htopLen : (top.length : Int) = topLen := by
    have h := randomString_length st.alphabet hne topLen.toNat s2
    rw [hrs1] at h
    simp only [] at h
    rw [h]
    omega
  have hbotLen : (bottom0.length : Int) = botLen := by
    have h := randomString_length st.alphabet hne botLen.toNat s3
    rw [hrs2] at h
    simp only [] at h
    rw [h]
    omega
  by_cases hbe : (bottom0 == top) = true
  · rw [if_pos hbe]
    have htw := tweakString_length s4 bottom0 st.alphabet
    refine ⟨by omega, by omega, by rw [htw]; omega, by rw [htw]; omega⟩
  · rw [if_neg hbe]
    simp only []
    refine ⟨by omega, by omega, by omega, by omega⟩

theorem unsolvTile_spec (st : PuzzleSettings) (hmn : 1 ≤ st.minLength)
    (hmx : st.minLength ≤ st.maxLength)
    (halpha2 : ∃ a ∈ st.alphabet, ∃ b ∈ st.alphabet, a ≠ b)
    (seen : List (List Char)) (s idx : Nat) :
    (∃ k, ((unsolvTile st seen s idx).1).id = makeIdStr idx k) ∧
    st.minLength ≤ (((unsolvTile st seen s idx).1).top.length : Int) ∧
    (((unsolvTile st seen s idx).1).top.length : Int) ≤ st.maxLength ∧
    st.minLength ≤ (((unsolvTile st seen s idx).1).bottom.length : Int) ∧
    (((unsolvTile st seen s idx).1).bottom.length : Int) ≤ st.maxLength ∧
    ((unsolvTile st seen s idx).1).top ≠ ((unsolvTile st seen s idx).1).bottom := by
  have hne : st.alphabet ≠ [] := by
    obtain ⟨a, ha, _⟩ := halpha2
    intro hc
    rw [hc] at ha
    exact absurd ha (List.not_mem_nil a)
  unfold unsolvTile
  obtain ⟨s0, hloop⟩ := unsolvLoop_body st seen 49 s
  rw [hloop]
  have hb := unsolvBody_spec st hmn hmx hne s0
  rcases hbod : unsolvBody st s0 with ⟨top, bottom0, key, s1⟩
  rw [hbod] at hb
  simp only [] at hb ⊢
  rw [makeId_eq]
  by_cases hbe : (top == bottom0) = true
  · rw [if_pos hbe]
    simp only []
    have heq : top = bottom0 := by
      rw [← beq_iff_eq (a := top) (b := bottom0)]
      exact hbe
    have hb0ne : bottom0 ≠ [] := by
      intro hc
      rw [hc] at hb
      simp only [List.length_nil, Int.ofNat_zero, Nat.cast_zero] at hb
      omega
    have htw := tweakString_length s1 bottom0 st.alphabet
    have htne := tweakString_ne s1 bottom0 st.alphabet hb0ne halpha2
    refine ⟨⟨_, rfl⟩, hb.1, hb.2.1, ?_, ?_, ?_⟩
    · rw [htw]
      exact hb.2.2.1
    · rw [htw]
      exact hb.2.2.2
    · rw [heq]
      exact fun hcon => htne hcon.symm
  · rw [if_neg hbe]
    simp only []
    have hneq : top ≠ bottom0 := by
      intro hcon
      exact hbe (by rw [hcon, beq_iff_eq])
    exact ⟨⟨_, rfl⟩, hb.1, hb.2.1, hb.2.2.1, hb.2.2.2, hneq⟩

theorem unsolvTiles_spec (st : PuzzleSettings) (hmn : 1 ≤ st.minLength)
    (hmx : st.minLength ≤ st.maxLength)
    (halpha2 : ∃ a ∈ st.alphabet, ∃ b ∈ st.alphabet, a ≠ b) :
    ∀ (n idx : Nat) (seen : List (List Char)) (s : Nat),
      ((unsolvTiles st idx n seen s).1.map (fun t => parseIdx t.id) = List.range' idx n) ∧
      (∀ t ∈ (unsolvTiles st idx n seen s).1, ∃ i k, t.id = makeIdStr i k) ∧
      (∀ t ∈ (unsolvTiles st idx n seen s).1,
        st.minLength ≤ (t.top.length : Int) ∧ (t.top.length : Int) ≤ st.maxLength ∧
        st.minLength ≤ (t.bottom.length : Int) ∧ (t.bottom.length : Int) ≤ st.maxLength ∧
        t.top ≠ t.bottom) := by
  intro n
  induction n with
  | zero =>
    intro idx seen s
    exact ⟨rfl, fun t ht => absurd ht (List.not_mem_nil t),
      fun t ht => absurd ht (List.not_mem_nil t)⟩
  | succ n ih =>
    intro idx seen s
    rw [show unsolvTiles st idx (n + 1) seen s =
      (let (tile, seen', s1) := unsolvTile st seen s idx
       let (rest, s2) := unsolvTiles st (idx + 1) n seen' s1
       (tile :: rest, s2)) from rfl]
    have htile := unsolvTile_spec st hmn hmx halpha2 seen s idx
    rcases hut : unsolvTile st seen s idx with ⟨tile, seen', s1⟩
    rw [hut] at htile
    simp only [] at htile ⊢
    have hr := ih (idx + 1) seen' s1
    rcases hrest : unsolvTiles st (idx + 1) n seen' s1 with ⟨rest, s2⟩
    rw [hrest] at hr
    simp only [] at hr ⊢
    obtain ⟨k0, hk0⟩ := htile.1
    refine ⟨?_, ?_, ?_⟩
    · rw [List.map_cons, List.range'_succ, hk0, parseIdx_makeIdStr, hr.1]
    · intro t ht
      rcases List.mem_cons.mp ht with hhd | htl
      · exact ⟨idx, k0, hhd ▸ hk0⟩
      · exact hr.2.1 t htl
    · intro t ht
      rcases List.mem_cons.mp ht with hhd | htl
      · subst hhd
        exact ⟨htile.2.1, htile.2.2.1, htile.2.2.2.1, htile.2.2.2.2.1, htile.2.2.2.2.2⟩
      · exact hr.2.2 t htl


theorem unsolvTile_id (st : PuzzleSettings) (seen : List (List Char)) (s idx : Nat) :
    ∃ k, ((unsolvTile st seen s idx).1).id = makeIdStr idx k := by
  unfold unsolvTile
  rcases hbod : unsolvLoop st seen 49 s with ⟨top, bottom0, key, s1⟩
  simp only []
  rw [makeId_eq]
  exact ⟨_, rfl⟩

theorem unsolvTiles_ids (st : PuzzleSettings) :
    ∀ (n idx : Nat) (seen : List (List Char)) (s : Nat),
      ((unsolvTiles st idx n seen s).1.map (fun t => parseIdx t.id) = List.range' idx n) ∧
      (∀ t ∈ (unsolvTiles st idx n seen s).1, ∃ i k, t.id = makeIdStr i k) := by
  intro n
  induction n with
  | zero =>
    intro idx seen s
    exact ⟨rfl, fun t ht => absurd ht (List.not_mem_nil t)⟩
  | succ n ih =>
    intro idx seen s
    rw [show unsolvTiles st idx (n + 1) seen s =
      (let (tile, seen', s1) := unsolvTile st seen s idx
       let (rest, s2) := unsolvTiles st (idx + 1) n seen' s1
       (tile :: rest, s2)) from rfl]
    have htile := unsolvTile_id st seen s idx
    rcases hut : unsolvTile st seen s idx with ⟨tile, seen', s1⟩
    rw [hut] at htile
    simp only [] at htile ⊢
    have hr := ih (idx + 1) seen' s1
    rcases hrest : unsolvTiles st (idx + 1) n seen' s1 with ⟨rest, s2⟩
    rw [hrest] at hr
    simp only [] at hr ⊢
    obtain ⟨k0, hk0⟩ := htile
    refine ⟨?_, ?_⟩
    · rw [List.map_cons, List.range'_succ, hk0, parseIdx_makeIdStr, hr.1]
    · intro t ht
      rcases List.mem_cons.mp ht with hhd | htl
      · exact ⟨idx, k0, hhd ▸ hk0⟩
      · exact hr.2 t htl

/-- C4 (amended).  Every tile of an instance `generatePuzzle` returns
has top and bottom lengths within the resolved
`[settings.minLength, settings.maxLength]` and a top differing from its
bottom, PROVIDED the resolved alphabet holds at least two distinct
symbols.  (Over a one-symbol alphabet the unsolvable builder's
`tweakString` finds no differing symbol and returns self-matching tiles
— see the counterexample.) -/
theorem C4_tile_bounds (fuel : Nat) (r : List Char) (preset : PresetName)
    (seed : Option (List Char)) (ovr : GenOverrides) (inst : PuzzleInstance)
    (hgen : generatePuzzle fuel r preset seed ovr = some (some inst))
    (halpha2 : ∃ a ∈ inst.settings.alphabet, ∃ b ∈ inst.settings.alphabet, a ≠ b) :
    ∀ t ∈ inst.tiles,
      inst.settings.minLength ≤ (t.top.length : Int) ∧
      (t.top.length : Int) ≤ inst.settings.maxLength ∧
      inst.settings.minLength ≤ (t.bottom.length : Int) ∧
      (t.bottom.length : Int) ≤ inst.settings.maxLength ∧
      t.top ≠ t.bottom := by
  obtain ⟨hset, hbr⟩ := generate_inv fuel r preset seed ovr inst hgen
  have hlb := resolveSettings_len_bounds preset ovr (hashSeed (deriveSeed r seed))
  have hmn : 1 ≤ inst.settings.minLength := by
    rw [hset]
    exact hlb.1
  have hmx : inst.settings.minLength ≤ inst.settings.maxLength := by
    rw [hset]
    exact hlb.2.2.1
  have hne : inst.settings.alphabet ≠ [] := by
    obtain ⟨a, ha, -⟩ := halpha2
    intro hc
    rw [hc] at ha
    exact absurd ha (List.not_mem_nil a)
  rcases hbr with ⟨-, -, s2, htiles⟩ | ⟨-, s2, sOut, tilesD, sol, hbs, htiles, -⟩
  · rw [htiles]
    exact (unsolvTiles_spec inst.settings hmn hmx halpha2
      inst.settings.tileCount.toNat 0 [] s2).2.2
  · obtain ⟨tp, bp, T, sA, sC, tilesK, hGP, hloop, hsolK, hdisp⟩ :=
      buildSolvableTiles_inv fuel inst.settings s2 tilesD sol sOut hbs
    obtain ⟨hlenEq, hcntLe, hsumTp, hsumBp, hmemTp, hmemBp, -⟩ := hGP
    have htp0 : ∀ x ∈ tp, 0 ≤ x := fun x hx => le_of_lt (hmemTp x hx).2.2
    have hbp0 : ∀ x ∈ bp, 0 ≤ x := fun x hx => le_of_lt (hmemBp x hx).2.2
    have hm1 : max 1 inst.settings.minLength = inst.settings.minLength := max_eq_right hmn
    have hm2 : max (max 1 inst.settings.minLength) inst.settings.maxLength
        = inst.settings.maxLength := by
      rw [hm1]
      exact max_eq_right hmx
    set target := (randomString inst.settings.alphabet sA T.toNat).1 with htgt
    have hT0 : (0 : Int) ≤ T := by
      rw [← hsumTp]
      exact List.sum_nonneg htp0
    have htgtLen : (target.length : Int) = T := by
      rw [htgt, randomString_length inst.settings.alphabet hne T.toNat sA]
      omega
    have hroomT : (0 : Int) + sumIdxFrom tp 0 inst.settings.tileCount.toNat
        ≤ (target.length : Int) := by
      rw [htgtLen, zero_add, ← hsumTp]
      exact sumIdxFrom_le_sum tp htp0 _
    have hroomB : (0 : Int) + sumIdxFrom bp 0 inst.settings.tileCount.toNat
        ≤ (target.length : Int) := by
      rw [htgtLen, zero_add, ← hsumBp]
      exact sumIdxFrom_le_sum bp hbp0 _
    have hlens := tileLoop_lengths target tp bp (max 1 inst.settings.minLength)
      (max (max 1 inst.settings.minLength) inst.settings.maxLength) hmemTp hmemBp
      inst.settings.tileCount.toNat 0 0 0 [] _ tilesK sC hloop (le_refl 0) (le_refl 0)
      (by omega) (by omega) hroomT hroomB
    have hneT := (tileLoop_spec target tp bp htp0 hbp0
      inst.settings.tileCount.toNat 0 0 0 [] _ tilesK sC hloop
      (le_refl 0) (le_refl 0)).2.2.2.2.2
    have hperm : List.Perm inst.tiles tilesK := by
      rw [htiles, hdisp]
      exact shuffle_perm sC tilesK
    intro t ht
    have htK : t ∈ tilesK := hperm.subset ht
    have hb := hlens t htK
    rw [hm2, hm1] at hb
    exact ⟨hb.1, hb.2.1, hb.2.2.1, hb.2.2.2, hneT t htK⟩

/-- C4 witness: in the concrete easy-preset instance for seed
`"abc123"` the first display tile meets the length bounds and
top/bottom differ. -/
theorem C4_tile_bounds_witness :
    instEasy.settings.minLength
      ≤ ((Tile.mk "tile-1-ihav".toList "bba".toList "abb".toList).top.length : Int) ∧
    (((Tile.mk "tile-1-ihav".toList "bba".toList "abb".toList).top.length : Int))
      ≤ instEasy.settings.maxLength ∧
    instEasy.settings.minLength
      ≤ ((Tile.mk "tile-1-ihav".toList "bba".toList "abb".toList).bottom.length : Int) ∧
    (((Tile.mk "tile-1-ihav".toList "bba".toList "abb".toList).bottom.length : Int))
      ≤ instEasy.settings.maxLength ∧
    (Tile.mk "tile-1-ihav".toList "bba".toList "abb".toList).top
      ≠ (Tile.mk "tile-1-ihav".toList "bba".toList "abb".toList).bottom :=
  C4_tile_bounds 1000 "rnd".toList PresetName.easy (some "abc123".toList) {}
    instEasy (by decide) (by decide)
    (Tile.mk "tile-1-ihav".toList "bba".toList "abb".toList) (by decide)

/-- C10.  In every returned instance each tile id has the form
`tile-<i>-<suffix>` with `i` the 0-based construction index (the decimal
digits parse back to `i`, and over the whole instance the indices are
exactly `0 .. tiles.length - 1`), so ids are pairwise distinct; and any
recorded solution is exactly the tile ids sorted by the embedded index:
a permutation of the display ids that is strictly increasing in the
parsed index. -/
theorem C10_id_scheme (fuel : Nat) (r : List Char) (preset : PresetName)
    (seed : Option (List Char)) (ovr : GenOverrides) (inst : PuzzleInstance)
    (hgen : generatePuzzle fuel r preset seed ovr = some (some inst)) :
    (∀ t ∈ inst.tiles, ∃ i k, t.id = makeIdStr i k ∧ parseIdx t.id = i) ∧
    List.Perm (inst.tiles.map fun t => parseIdx t.id) (List.range' 0 inst.tiles.length) ∧
    (inst.tiles.map Tile.id).Nodup ∧
    (∀ sol, inst.solution = some sol →
      List.Perm sol (inst.tiles.map Tile.id) ∧
      sol.Pairwise (fun a b => parseIdx a < parseIdx b)) := by
  obtain ⟨hset, hbr⟩ := generate_inv fuel r preset seed ovr inst hgen
  rcases hbr with ⟨-, hsolN, s2, htiles⟩ | ⟨-, s2, sOut, tilesD, sol0, hbs, htiles, hsol⟩
  · have hids := unsolvTiles_ids inst.settings inst.settings.tileCount.toNat 0 [] s2
    rw [← htiles] at hids
    have hlen : inst.tiles.length = inst.settings.tileCount.toNat := by
      have := congrArg List.length hids.1
      simpa using this
    refine ⟨?_, ?_, ?_, ?_⟩
    · intro t ht
      obtain ⟨i, k, hik⟩ := hids.2 t ht
      exact ⟨i, k, hik, by rw [hik, parseIdx_makeIdStr]⟩
    · rw [hids.1, hlen]
    · exact ids_nodup_of_parse inst.tiles 0 inst.settings.tileCount.toNat hids.1
    · intro sol hs
      rw [hsolN] at hs
      exact absurd hs (by simp)
  · obtain ⟨tp, bp, T, sA, sC, tilesK, hGP, hloop, hsolK, hdisp⟩ :=
      buildSolvableTiles_inv fuel inst.settings s2 tilesD sol0 sOut hbs
    obtain ⟨hlenEq, hcntLe, hsumTp, hsumBp, hmemTp, hmemBp, -⟩ := hGP
    have htp0 : ∀ x ∈ tp, 0 ≤ x := fun x hx => le_of_lt (hmemTp x hx).2.2
    have hbp0 : ∀ x ∈ bp, 0 ≤ x := fun x hx => le_of_lt (hmemBp x hx).2.2
    set target := (randomString inst.settings.alphabet sA T.toNat).1 with htgt
    obtain ⟨hlenK, hparse, hform, -, -, -⟩ :=
      tileLoop_spec target tp bp htp0 hbp0 inst.settings.tileCount.toNat 0 0 0 [] _
        tilesK sC hloop (le_refl 0) (le_refl 0)
    have hperm : List.Perm inst.tiles tilesK := by
      rw [htiles, hdisp]
      exact shuffle_perm sC tilesK
    have hndK : (tilesK.map Tile.id).Nodup :=
      ids_nodup_of_parse tilesK 0 inst.settings.tileCount.toNat hparse
    refine ⟨?_, ?_, ?_, ?_⟩
    · intro t ht
      obtain ⟨i, k, hik⟩ := hform t (hperm.subset ht)
      exact ⟨i, k, hik, by rw [hik, parseIdx_makeIdStr]⟩
    · have hp := hperm.map (fun t => parseIdx t.id)
      rw [hparse] at hp
      have hl : inst.tiles.length = inst.settings.tileCount.toNat := by
        rw [hperm.length_eq, hlenK]
      rw [hl]
      exact hp
    · exact ((hperm.map Tile.id).nodup_iff).mpr hndK
    · intro sol hs
      rw [hsol] at hs
      injection hs with hs
      subst hs
      constructor
      · rw [hsolK]
        exact (hperm.map Tile.id).symm
      · rw [hsolK]
        have h1 : (tilesK.map (fun t => parseIdx t.id)).Pairwise (· < ·) := by
          rw [hparse]
          exact List.pairwise_lt_range' 0 _
        have h2 : tilesK.Pairwise (fun t u => parseIdx t.id < parseIdx u.id) :=
          List.pairwise_map.mp h1
        exact List.pairwise_map.mpr h2

/-- C10 witness: the concrete easy-preset instance has ids parsing to
`0, 1, 2` up to order, pairwise-distinct ids, and its recorded solution
is the ids sorted by embedded index. -/
theorem C10_id_scheme_witness :
    List.Perm (instEasy.tiles.map fun t => parseIdx t.id)
      (List.range' 0 instEasy.tiles.length) ∧
    (instEasy.tiles.map Tile.id).Nodup ∧
    (List.Perm ["tile-0-6oto".toList, "tile-1-ihav".toList, "tile-2-3ntt".toList]
      (instEasy.tiles.map Tile.id) ∧
     (["tile-0-6oto".toList, "tile-1-ihav".toList, "tile-2-3ntt".toList]
       : List (List Char)).Pairwise (fun a b => parseIdx a < parseIdx b)) := by
  have h := C10_id_scheme 1000 "rnd".toList PresetName.easy (some "abc123".toList) {}
    instEasy (by decide)
  exact ⟨h.2.1, h.2.2.1, h.2.2.2 _ rfl⟩

def ovrUnary : GenOverrides :=
  { tileCount := some 1, minLength := some 1, maxLength := some 1,
    alphabetSize := some 1, allowUnsolvable := some true }

def instUnary : PuzzleInstance :=
  { seed := "b".toList,
    preset := PresetName.easy,
    settings :=
      { tileCount := 1, tileCountRange := some (1, 1), alphabet := "a".toList,
        minLength := 1, maxLength := 1, allowUnsolvable := true,
        forceUnique := true, theme := some AlphabetTheme.preset },
    tiles := [{ id := "tile-0-6k0x".toList, top := "a".toList, bottom := "a".toList }],
    solvable := false,
    solution := none }

/-- C4 counterexample: with a one-symbol alphabet override (seed `"b"`,
`alphabetSize = 1`, `minLength = maxLength = 1`, unsolvable allowed) the
generator returns a tile whose top equals its bottom, refuting the
unconditional top-differs-from-bottom clause. -/
theorem C4_counterexample_unary :
    generatePuzzle 1000 ([] : List Char) PresetName.easy (some "b".toList) ovrUnary
      = some (some instUnary) ∧
    (instUnary.tiles.any fun t => t.top == t.bottom) = true :=
  ⟨by decide, by decide⟩

end PCP
